import Mathlib

/-!
# ByToken: a byte-pair-encoding tokenizer

A shallow embedding of `src/bytoken.cpp` (class `ByToken`: `train`, `encode`,
`decode`, `save`, `from_file`) together with theorems about it.

Modelling conventions.

* `std::string` is a list of characters (`Str`); the `char` with byte value `b`
  is the Lean `Char` with code point `b`. The type `char` is signed, as on
  x86-64: `std::set<char>` orders the bytes by their value as a signed 8-bit
  integer (`char_value`), so the bytes from `0x80` on come before the ASCII
  characters.
* `std::unordered_map` is an association list holding every key at most once.
  Its iteration order is unspecified in C++; wherever the source iterates over
  an unordered map (`std::max_element` over `pair_count`, the copy of `stoi`
  into `final_vocab`, the serialisation of `itos`) the order is supplied by a
  `HashOrder`, an arbitrary permutation of the entries. Theorems quantify over
  every `HashOrder`.
* `int` values are integers; the two places where the source mixes `int` and
  `size_t` (the precondition of `train`, and the loop bound `size() - 1`) are
  modelled with explicit arithmetic modulo `2 ^ 64`.
* Console output (`verbose`) is not modelled.
-/

namespace Bytoken

/-- A `std::string`: the list of its characters. -/
abbrev Str := List Char

/-- The literal `"<UNK>"`. -/
def UNK : Str := ['<', 'U', 'N', 'K', '>']

/-- The literal `"<INVALID_ID>"`. -/
def INVALID_ID : Str := ['<', 'I', 'N', 'V', 'A', 'L', 'I', 'D', '_', 'I', 'D', '>']

/-! ## Unordered maps -/

/-- Lookup in a map (`m.find(k)`): the value stored under `k`, if any. -/
def um_find {K V : Type} [DecidableEq K] : List (K × V) → K → Option V
  | [], _ => none
  | (a, b) :: m, k => if a = k then some b else um_find m k

/-- Insert-or-assign (`m[k] = v`): the value under `k` is replaced when `k` is
present, and a new entry is added otherwise. -/
def um_assign {K V : Type} [DecidableEq K] : List (K × V) → K → V → List (K × V)
  | [], k, v => [(k, v)]
  | (a, b) :: m, k, v => if a = k then (k, v) :: m else (a, b) :: um_assign m k v

/-- The map after evaluating `m[k]` as an rvalue: `operator[]` inserts a
value-initialised entry (`dflt`) when `k` is absent. -/
def um_touch {K V : Type} [DecidableEq K] (m : List (K × V)) (k : K) (dflt : V) : List (K × V) :=
  match um_find m k with
  | some _ => m
  | none => um_assign m k dflt

/-- The value of `m[k]` read as an rvalue: the stored value, or the
value-initialised `dflt` that `operator[]` has just inserted. -/
def um_at {K V : Type} [DecidableEq K] (m : List (K × V)) (k : K) (dflt : V) : V :=
  (um_find m k).getD dflt

/-- Iteration orders of the unordered maps of the program. The C++ standard
leaves the order unspecified: each field is an arbitrary rearrangement of the
entries it is given. -/
structure HashOrder where
  /-- Iteration order of `pair_count`. -/
  pairs : List ((Int × Int) × Nat) → List ((Int × Int) × Nat)
  pairs_perm : ∀ l, (pairs l).Perm l
  /-- Iteration order of `stoi`, followed by whatever rearrangement of ties
  the unstable `std::sort` makes. -/
  strs : List (Str × Int) → List (Str × Int)
  strs_perm : ∀ l, (strs l).Perm l
  /-- Iteration order of `itos`. -/
  ids : List (Int × Str) → List (Int × Str)
  ids_perm : ∀ l, (ids l).Perm l

/-- The order that iterates every map in insertion order. -/
def HashOrder.insertion : HashOrder :=
  ⟨id, fun l => List.Perm.refl l, id, fun l => List.Perm.refl l, id, fun l => List.Perm.refl l⟩

/-! ## The tokenizer object -/

/-- The data members of `class ByToken`. -/
structure ByToken where
  vocab_size : Int
  max_key : Int
  stoi : List (Str × Int)
  itos : List (Int × Str)
  final_vocab : List (Str × Int)
  merges : List ((Int × Int) × Int)
  deriving DecidableEq

/-- The constructor `ByToken::ByToken()`: `vocab_size(0), max_key(0)` and empty
containers. -/
def ByToken.fresh : ByToken := ⟨0, 0, [], [], [], []⟩

/-! ## `train` -/

/-- The value of a `char` as a signed 8-bit integer: the bytes `0x80 .. 0xff`
are the values `-128 .. -1`. (A Lean `Char` from `256` on is no `char`; it keeps
its code point, so that the order is total on the model's characters.) -/
def char_value (c : Char) : Int :=
  if 128 ≤ c.toNat ∧ c.toNat < 256 then (c.toNat : Int) - 256 else (c.toNat : Int)

/-- Insertion into a `std::set<char>`, whose comparison is `<` on `char`: the
list stays strictly ascending in `char_value`, and a character equivalent to
one of the set (neither is less than the other) is not inserted. -/
def set_insert (c : Char) : List Char → List Char
  | [] => [c]
  | x :: xs =>
    if char_value c < char_value x then c :: x :: xs
    else if char_value x < char_value c then x :: set_insert c xs
    else x :: xs

/-- The set `text_corpus_unique(text_corpus.begin(), text_corpus.end())`, as
the list of its elements in iteration (ascending) order. -/
def text_corpus_unique (text_corpus : Str) : List Char :=
  text_corpus.foldl (fun s c => set_insert c s) []

/-- Conversion of an `int` to `size_t` (64 bits), as the comparison
`text_corpus_unique.size() + 1 > vocab_size` performs it. -/
def to_size_t (n : Int) : Nat := (n % 18446744073709551616).toNat

/-- The unsigned value of `text_idx.size() - 1` for a vector of `n` elements. -/
def size_minus_one (n : Nat) : Nat := (n + 18446744073709551616 - 1) % 18446744073709551616

/-- The largest `int`. -/
def INT_MAX : Nat := 2147483647

/-- Outcome of a call of `train`. -/
inductive TrainResult where
  /-- Normal return; the object is left as `t`. -/
  | ok (t : ByToken)
  /-- The `std::runtime_error` of the precondition check, whose message names
  `vocab_size` and the number of unique characters; the object is left as `t`. -/
  | runtime_error (vocab_size : Int) (unique : Nat) (t : ByToken)
  /-- Undefined behaviour: an out-of-bounds read of `text_idx` or an overflow
  of the `int` loop counter. -/
  | undefined
  deriving DecidableEq

/-- The seeding loop `for (char ch : text_corpus_unique)`: each character gets
the next id. -/
def seed (t : ByToken) : List Char → ByToken
  | [] => t
  | ch :: rest =>
    seed { t with
      stoi := um_assign t.stoi [ch] t.max_key
      itos := um_assign t.itos t.max_key [ch]
      max_key := t.max_key + 1 } rest

/-- The body of the counting loop, `pair_count[make_pair(a, b)]++`. -/
def pair_incr (pc : List ((Int × Int) × Nat)) (p : Int × Int) : List ((Int × Int) × Nat) :=
  um_assign pc p (um_at pc p 0 + 1)

/-- The counting loop `for (int i = 0; i < text_idx.size()-1; i++)` over a
vector with at least one element: one increment per adjacent pair. -/
def pair_count_from (pc : List ((Int × Int) × Nat)) : List Int → List ((Int × Int) × Nat)
  | a :: b :: rest => pair_count_from (pair_incr pc (a, b)) (b :: rest)
  | _ => pc

/-- The map `pair_count` after the counting loop. The loop runs `i` from `0`
while `i < text_idx.size()-1` with `i` an `int` and the bound a `size_t`: on an
empty vector the bound is `2 ^ 64 - 1` and `text_idx[0]` is read out of
bounds, and on a vector of more than `INT_MAX + 1` elements the counter
overflows; both are undefined behaviour (`none`). -/
def pair_count (text_idx : List Int) : Option (List ((Int × Int) × Nat)) :=
  if size_minus_one text_idx.length ≤ INT_MAX then some (pair_count_from [] text_idx) else none

/-- The scan of `std::max_element` with the comparison `a.second < b.second`:
`largest` is replaced only by a strictly greater element, so the first
greatest element in iteration order is returned. -/
def max_element_from (largest : (Int × Int) × Nat) :
    List ((Int × Int) × Nat) → (Int × Int) × Nat
  | [] => largest
  | x :: xs => if largest.2 < x.2 then max_element_from x xs else max_element_from largest xs

/-- The element `std::max_element` points to; `none` on an empty range. -/
def max_element : List ((Int × Int) × Nat) → Option ((Int × Int) × Nat)
  | [] => none
  | x :: xs => some (max_element_from x xs)

/-- The rewrite loop
`int i{0}; while (i < text_idx.size()-1) { ... i += 2 ... i++ }`
on the part of `text_idx` from index `i` on. A lone last element is not
copied: the loop stops at `i = size() - 1`. `none` is the overflow of `i` by
`i += 2`. -/
def new_text_idx (max_pair : Int × Int) (max_key : Int) : Nat → List Int → Option (List Int)
  | i, a :: b :: rest =>
    if (a, b) = max_pair then
      if i + 2 ≤ INT_MAX then (new_text_idx max_pair max_key (i + 2) rest).map (max_key :: ·)
      else none
    else (new_text_idx max_pair max_key (i + 1) (b :: rest)).map (a :: ·)
  | _, _ => some []

/-- The state of the merge loop: the object and the local `text_idx`. -/
structure TrainState where
  tok : ByToken
  text_idx : List Int
  deriving DecidableEq

/-- Outcome of one evaluation of the loop condition and body. -/
inductive StepResult where
  /-- The loop is left (condition false, or `break`). -/
  | done (s : TrainState)
  /-- The body ran to its end. -/
  | more (s : TrainState)
  /-- Undefined behaviour. -/
  | undefined
  deriving DecidableEq

/-- The statements after the rewrite loop: the merged token is recorded under
the id `max_key`, the rule is recorded, and `text_idx` is replaced. The two
reads `itos[max_pair.first]` and `itos[max_pair.second]` go through
`operator[]`, which inserts an empty string for an absent id. -/
def record_merge (t : ByToken) (max_pair : Int × Int) (new_idx : List Int) : TrainState :=
  let merged_pair := um_at t.itos max_pair.1 [] ++ um_at t.itos max_pair.2 []
  { tok := { t with
      itos := um_assign (um_touch (um_touch t.itos max_pair.1 []) max_pair.2 []) t.max_key
        merged_pair
      stoi := um_assign t.stoi merged_pair t.max_key
      merges := um_assign t.merges max_pair t.max_key
      max_key := t.max_key + 1 }
    text_idx := new_idx }

/-- One round of `while (max_key < vocab_size) { ... }`. -/
def train_step (o : HashOrder) (vocab_size : Int) (s : TrainState) : StepResult :=
  if s.tok.max_key < vocab_size then
    match pair_count s.text_idx with
    | none => .undefined
    | some pc =>
      if pc.isEmpty then .done s
      else
        match max_element (o.pairs pc) with
        | none => .undefined
        | some (max_pair, _) =>
          match new_text_idx max_pair s.tok.max_key 0 s.text_idx with
          | none => .undefined
          | some new_idx => .more (record_merge s.tok max_pair new_idx)
  else .done s

/-- The merge loop, run for at most `fuel` rounds. Every round that does not
leave the loop increments `max_key`, so `vocab_size - max_key` rounds are
enough (`train_loop_fuel`). `none` is undefined behaviour. -/
def train_loop (o : HashOrder) (vocab_size : Int) : Nat → TrainState → Option TrainState
  | 0, s => some s
  | fuel + 1, s =>
    match train_step o vocab_size s with
    | .done s1 => some s1
    | .more s1 => train_loop o vocab_size fuel s1
    | .undefined => none

/-- The rebuilt lookup table: the entries of `stoi` in iteration order, sorted
by `std::sort` with `a.first.length() > b.first.length()`. `std::sort` is not
stable; the rearrangement of ties is part of `o.strs`. -/
def sorted_vocab (o : HashOrder) (stoi : List (Str × Int)) : List (Str × Int) :=
  List.insertionSort (fun a b => a.1.length ≥ b.1.length) (o.strs stoi)

/-- The object after `stoi["<UNK>"] = max_key; itos[max_key] = "<UNK>"; max_key++`. -/
def add_unk (t : ByToken) : ByToken :=
  { t with
    stoi := um_assign t.stoi UNK t.max_key
    itos := um_assign t.itos t.max_key UNK
    max_key := t.max_key + 1 }

/-- The initial working sequence: `text_idx.push_back(stoi[str])` for every
character of the corpus. Every character has been seeded, so `operator[]`
never inserts here. -/
def initial_text_idx (stoi : List (Str × Int)) (text_corpus : Str) : List Int :=
  text_corpus.map (fun ch => um_at stoi [ch] 0)

/-- The method `ByToken::train(text_corpus, vocab_size, verbose)` called on the
object `t`. From a freshly constructed object `max_key` stays below
`max(vocab_size, number of characters + 2)`, so the `int` counter `max_key`
does not overflow. The set `milestones` (floating point, read only for the
`verbose` output) is not modelled. -/
def train (o : HashOrder) (t : ByToken) (text_corpus : Str) (vocab_size : Int) : TrainResult :=
  let t1 := { t with vocab_size := vocab_size }
  let unique := text_corpus_unique text_corpus
  if unique.length + 1 > to_size_t vocab_size then
    .runtime_error vocab_size unique.length t1
  else
    let t2 := seed (add_unk t1) unique
    match train_loop o vocab_size (vocab_size - t2.max_key).toNat
        ⟨t2, initial_text_idx t2.stoi text_corpus⟩ with
    | none => .undefined
    | some s => .ok { s.tok with final_vocab := sorted_vocab o s.tok.stoi }

/-! ## `encode` and `decode` -/

/-- The scan `for (const auto& [substr, subkey] : this->final_vocab)` at a
cursor `pos`, with `rest` the part of `text` from `pos` on. The test
`pos + len <= text.length() && text.compare(pos, len, substr) == 0` says that
`substr` is an initial segment of `rest`; the first entry that passes it is
returned (`break`). -/
def first_match : List (Str × Int) → Str → Option (Str × Int)
  | [], _ => none
  | (substr, subkey) :: final_vocab, rest =>
    if substr <+: rest then some (substr, subkey) else first_match final_vocab rest

/-- The cursor loop `while (pos < text.size())` of `encode`, on the text
`rest` from the cursor on and with the current `stoi`; it returns the ids
pushed from here on and the final `stoi`.

* A matched entry pushes `subkey` and moves the cursor by `substr.length()`.
  When the matched entry is the empty string the cursor does not move and the
  loop pushes for ever: `none`.
* With no match, `stoi["<UNK>"]` is pushed (`operator[]` inserts `0` when the
  key is absent) and the cursor moves by one.

The first argument bounds the number of rounds; every round that returns
moves the cursor, so `text.length()` rounds are enough. -/
def encode_loop (final_vocab : List (Str × Int)) :
    Nat → Str → List (Str × Int) → Option (List Int × List (Str × Int))
  | _, [], stoi => some ([], stoi)
  | 0, _ :: _, _ => none
  | fuel + 1, c :: cs, stoi =>
    match first_match final_vocab (c :: cs) with
    | some (substr, subkey) =>
      if substr.length = 0 then none
      else
        (encode_loop final_vocab fuel ((c :: cs).drop substr.length) stoi).map
          (fun r => (subkey :: r.1, r.2))
    | none =>
      (encode_loop final_vocab fuel cs (um_touch stoi UNK 0)).map
        (fun r => (um_at stoi UNK 0 :: r.1, r.2))

/-- The method `ByToken::encode(text)` called on the object `t`: the returned
vector and the object afterwards (`stoi` may have gained the entry
`"<UNK>" ↦ 0`); `none` when the call does not return. -/
def encode (t : ByToken) (text : Str) : Option (List Int × ByToken) :=
  (encode_loop t.final_vocab text.length text t.stoi).map
    (fun r => (r.1, { t with stoi := r.2 }))

/-- The method `ByToken::decode(idx)`: `decoded_str` grows by `itos[i]` when
`itos.count(i)` is non-zero and by `"<INVALID_ID>"` otherwise. -/
def decode (t : ByToken) (idx : List Int) : Str :=
  idx.foldl
    (fun decoded_str i =>
      match um_find t.itos i with
      | some s => decoded_str ++ s
      | none => decoded_str ++ INVALID_ID)
    []

/-! ## Persistence: `save` and `from_file`

The file system and the text of the file are not modelled: `save` produces the
JSON value that is dumped, and `from_file` starts from the JSON value that was
parsed. The functions below are the part of the `nlohmann::json` interface the
source uses, restricted to the kinds of value `save` writes (integers,
strings, arrays, objects, null). -/

/-- A JSON value. -/
inductive Json where
  | null
  | num (n : Int)
  | str (s : Str)
  | arr (elems : List Json)
  | obj (members : List (Str × Json))

/-- The exceptions `from_file` can leave with once the file is open and
parsed. -/
inductive LoadError where
  /-- The `nlohmann::json` exception `type_error`: a value has not the type asked for. -/
  | type_error
  /-- The `nlohmann::json` exception `out_of_range` of `at` on an array, or
  the `std::out_of_range` of `std::stoi`. -/
  | out_of_range
  /-- The `nlohmann::json` exception `invalid_iterator` of `key()` on an iterator
  that is not over an object. -/
  | invalid_iterator
  /-- The `std::invalid_argument` of `std::stoi`. -/
  | invalid_argument
  deriving DecidableEq

/-- Reading `j[key]` on a non-const value: a null value turns into an
object, an absent key is inserted with the value null, and any other kind of
value throws. -/
def Json.index (j : Json) (key : Str) : Except LoadError Json :=
  match j with
  | .null => .ok .null
  | .obj members => .ok ((um_find members key).getD .null)
  | _ => .error .type_error

/-- Reading `j.at(i)` on an array. -/
def Json.at (j : Json) (i : Nat) : Except LoadError Json :=
  match j with
  | .arr elems =>
    match elems.get? i with
    | some e => .ok e
    | none => .error .out_of_range
  | _ => .error .type_error

/-- The value of `static_cast<int>` on a 64-bit integer. -/
def wrap_int (n : Int) : Int := (n + 2147483648) % 4294967296 - 2147483648

/-- The conversion `get<int>()`. -/
def Json.get_int (j : Json) : Except LoadError Int :=
  match j with
  | .num n => .ok (wrap_int n)
  | _ => .error .type_error

/-- The conversion `get<std::string>()`. -/
def Json.get_string (j : Json) : Except LoadError Str :=
  match j with
  | .str s => .ok s
  | _ => .error .type_error

/-- Insertion that keeps an existing entry (`m.emplace(k, v)`, `m.insert`). -/
def um_emplace {K V : Type} [DecidableEq K] (m : List (K × V)) (k : K) (v : V) : List (K × V) :=
  match um_find m k with
  | some _ => m
  | none => um_assign m k v

/-- The conversion `get<std::unordered_map<std::string, int>>()`: the value has
to be an object, each member is converted by `get<int>()`. -/
def Json.get_string_int_map (j : Json) : Except LoadError (List (Str × Int)) :=
  match j with
  | .obj members =>
    members.foldlM (fun m (kv : Str × Json) => do
      let v ← kv.2.get_int
      pure (um_emplace m kv.1 v)) []
  | _ => .error .type_error

/-- The conversion `get<std::unordered_map<int, std::string>>()`: a map whose key
is not a string is read from an array of arrays, `p.at(0)` the key and
`p.at(1)` the value. -/
def Json.get_int_string_map (j : Json) : Except LoadError (List (Int × Str)) :=
  match j with
  | .arr elems =>
    elems.foldlM (fun m (p : Json) => do
      match p with
      | .arr _ =>
        let k ← (← p.at 0).get_int
        let v ← (← p.at 1).get_string
        pure (um_emplace m k v)
      | _ => throw .type_error) []
  | _ => .error .type_error

/-- The conversion `get<std::vector<std::pair<std::string, int>>>()`. -/
def Json.get_pair_vector (j : Json) : Except LoadError (List (Str × Int)) :=
  match j with
  | .arr elems =>
    elems.mapM (fun (p : Json) => do
      let a ← (← p.at 0).get_string
      let b ← (← p.at 1).get_int
      pure (a, b))
  | _ => .error .type_error

/-- The decimal digits of a natural number, least significant first;
the first argument bounds the number of digits. -/
def digits_rev : Nat → Nat → List Char
  | 0, _ => []
  | fuel + 1, n =>
    Char.ofNat (48 + n % 10) :: (if n / 10 = 0 then [] else digits_rev fuel (n / 10))

/-- The function `std::to_string(int)`. -/
def to_string (n : Int) : Str :=
  if n < 0 then '-' :: (digits_rev (n.natAbs + 1) n.natAbs).reverse
  else (digits_rev (n.natAbs + 1) n.natAbs).reverse

/-- The key `std::to_string(pair.first) + "," + std::to_string(pair.second)`. -/
def merge_key (pair : Int × Int) : Str :=
  to_string pair.1 ++ [','] ++ to_string pair.2

/-- The value `merges_json` of `save`: null when there is no rule (it is
never assigned), else the object of the rules. -/
def merges_json (merges : List ((Int × Int) × Int)) : Json :=
  match merges with
  | [] => .null
  | _ => .obj (merges.foldl (fun m (r : (Int × Int) × Int) =>
      um_assign m (merge_key r.1) (Json.num r.2)) [])

/-- The JSON value that `ByToken::save(path)` dumps to the file. -/
def save (o : HashOrder) (t : ByToken) : Json :=
  .obj [
    ("config".toList, .obj [
      ("vocab_size".toList, .num t.vocab_size),
      ("max_key".toList, .num t.max_key)]),
    ("model".toList, .obj [
      ("vocab".toList, .obj [
        ("stoi".toList, .obj (t.stoi.map (fun e => (e.1, Json.num e.2)))),
        ("itos".toList, .arr ((o.ids t.itos).map (fun e => Json.arr [.num e.1, .str e.2]))),
        ("final_vocab".toList,
          .arr (t.final_vocab.map (fun e => Json.arr [.str e.1, .num e.2])))]),
      ("merges".toList, merges_json t.merges)])]

/-- Whether `isspace` holds of a character (in the "C" locale). -/
def is_space (c : Char) : Bool :=
  c = ' ' || c = '\t' || c = '\n' || c = '\x0b' || c = '\x0c' || c = '\r'

/-- The value of a run of leading decimal digits, and whether there was one. -/
def read_digits : Str → Nat → Bool → Nat × Bool
  | c :: cs, acc, seen =>
    if c.isDigit then read_digits cs (10 * acc + (c.toNat - 48)) true else (acc, seen)
  | [], acc, seen => (acc, seen)

/-- The function `std::stoi(str)`: white space is skipped, a sign is read,
then the longest run of digits; what follows is ignored. -/
def std_stoi (str : Str) : Except LoadError Int :=
  let s := str.dropWhile is_space
  let (neg, body) :=
    match s with
    | '-' :: cs => (true, cs)
    | '+' :: cs => (false, cs)
    | _ => (false, s)
  let (n, seen) := read_digits body 0 false
  if !seen then .error .invalid_argument
  else
    let v : Int := if neg then -(n : Int) else n
    if v < -2147483648 ∨ 2147483647 < v then .error .out_of_range else .ok v

/-- The members the loop `for (auto it = merges_json.begin(); ...)` visits, each
with `it.key()` and `it.value()`: those of an object in the order of their
keys; nothing for null or an empty array; on any other value `it.key()`
throws. -/
def merge_members (j : Json) : Except LoadError (List (Str × Json)) :=
  match j with
  | .null => .ok []
  | .obj members => .ok (List.insertionSort (fun a b => a.1 ≤ b.1) members)
  | .arr [] => .ok []
  | _ => .error .invalid_iterator

/-- The body of the loop over `merges_json` in `from_file`: a key without a
comma is skipped (`continue`). -/
def load_merge (merges : List ((Int × Int) × Int)) (kv : Str × Json) :
    Except LoadError (List ((Int × Int) × Int)) :=
  let key_str := kv.1
  if ',' ∈ key_str then do
    let first_id ← std_stoi (key_str.takeWhile (· ≠ ','))
    let second_id ← std_stoi ((key_str.dropWhile (· ≠ ',')).drop 1)
    let merge_id ← kv.2.get_int
    pure (um_assign merges (first_id, second_id) merge_id)
  else pure merges

/-- The function `ByToken::from_file(path)` on the parsed document `j`. Both
`vocab_size` and `max_key` are read from `j["config"]["vocab_size"]`; `stoi`,
`itos` and `final_vocab` are read from `j["model"]` directly. -/
def from_file (j : Json) : Except LoadError ByToken := do
  let vocab_size ← (← (← j.index "config".toList).index "vocab_size".toList).get_int
  let max_key ← (← (← j.index "config".toList).index "vocab_size".toList).get_int
  let stoi ← (← (← j.index "model".toList).index "stoi".toList).get_string_int_map
  let itos ← (← (← j.index "model".toList).index "itos".toList).get_int_string_map
  let final_vocab ← (← (← j.index "model".toList).index "final_vocab".toList).get_pair_vector
  let members ← merge_members (← (← j.index "model".toList).index "merges".toList)
  let merges ← members.foldlM load_merge []
  pure ⟨vocab_size, max_key, stoi, itos, final_vocab, merges⟩

/-! ## Definitions used to state the theorems -/

/-- The string `decode` contributes for one id. -/
def id_text (itos : List (Int × Str)) (i : Int) : Str :=
  match um_find itos i with
  | some s => s
  | none => INVALID_ID

/-- The number of positions `i` with `(w[i], w[i+1]) = p`: the occurrences of
the pair `p` among the adjacent pairs of `w`, overlapping ones counted
separately. -/
def occurrences (p : Int × Int) : List Int → Nat
  | a :: b :: rest => (if (a, b) = p then 1 else 0) + occurrences p (b :: rest)
  | _ => 0

/-- The corpus `"aaabdaaabac"`. -/
def corpus_aaabdaaabac : Str := ['a', 'a', 'a', 'b', 'd', 'a', 'a', 'a', 'b', 'a', 'c']

/-- The corpus `"<U<UN<UNK<UNK><UNK><UNK>"`, in which the characters of the
literal `"<UNK>"` occur next to each other. -/
def corpus_unk : Str :=
  ['<', 'U', '<', 'U', 'N', '<', 'U', 'N', 'K', '<', 'U', 'N', 'K', '>',
   '<', 'U', 'N', 'K', '>', '<', 'U', 'N', 'K', '>']

/-- Every entry of `stoi` has an id below `max_key`, is mirrored in `itos`,
and is not the empty string. -/
def Consistent (stoi : List (Str × Int)) (itos : List (Int × Str)) (max_key : Int) : Prop :=
  ∀ e ∈ stoi, e.2 < max_key ∧ um_find itos e.2 = some e.1 ∧ e.1 ≠ []

/-- The invariant of the merge loop used for the round trip: the maps are
`Consistent` and every id of the working sequence has a non-empty string. -/
def LoopInvariant (s : TrainState) : Prop :=
  Consistent s.tok.stoi s.tok.itos s.tok.max_key
    ∧ ∀ i ∈ s.text_idx, ∃ str, um_find s.tok.itos i = some str ∧ str ≠ []

/-- Every character of `text` is a key of `stoi`, as a one-character string. -/
def Covers (stoi : List (Str × Int)) (text : Str) : Prop :=
  ∀ c ∈ text, ∃ k, um_find stoi [c] = some k

/-- The concatenation of the token strings of a working sequence. -/
def seq_text (itos : List (Int × Str)) (w : List Int) : Str :=
  (w.map (id_text itos)).flatten

/-- A document in the nesting `from_file` reads, whose merges object holds the
one key `"12"`, a key without a comma. -/
def doc_key_without_comma : Json :=
  .obj [
    ("config".toList, .obj [("vocab_size".toList, .num 3)]),
    ("model".toList, .obj [
      ("stoi".toList, .obj [(['a'], .num 1)]),
      ("itos".toList, .arr [.arr [.num 1, .str ['a']]]),
      ("final_vocab".toList, .arr [.arr [.str ['a'], .num 1]]),
      ("merges".toList, .obj [(['1', '2'], .num 5)])])]

/-- A document in the nesting `from_file` reads, whose merges object holds the
one key `"x,2"`: the part before the comma is not a number. -/
def doc_key_not_numeric : Json :=
  .obj [
    ("config".toList, .obj [("vocab_size".toList, .num 3)]),
    ("model".toList, .obj [
      ("stoi".toList, .obj [(['a'], .num 1)]),
      ("itos".toList, .arr [.arr [.num 1, .str ['a']]]),
      ("final_vocab".toList, .arr [.arr [.str ['a'], .num 1]]),
      ("merges".toList, .obj [(['x', ',', '2'], .num 5)])])]

/-- The tokenizer `train` leaves on the corpus `"aaabdaaabac"` with
`vocab_size = 6`, the maps iterated in insertion order. -/
def trained_aaabdaaabac : ByToken :=
  ⟨6, 6, [(UNK, 0), (['a'], 1), (['b'], 2), (['c'], 3), (['d'], 4), (['a', 'a'], 5)],
    [(0, UNK), (1, ['a']), (2, ['b']), (3, ['c']), (4, ['d']), (5, ['a', 'a'])],
    [(UNK, 0), (['a', 'a'], 5), (['a'], 1), (['b'], 2), (['c'], 3), (['d'], 4)],
    [((1, 1), 5)]⟩

/-- The invariant of the merge loop about the merge rules, for a loop that
started with `max_key = base` and no rule:

* every id of the working sequence is below `max_key`;
* every rule has a target below `max_key` and above both sides, both sides
  have a string in `itos`, and the string of the target is the string of the
  left side followed by the string of the right side;
* no pair with a rule occurs in the working sequence any more;
* every pair has at most one rule;
* the targets of the rules are `base, base + 1, ...` up to `max_key - 1`, one
  rule per round. -/
def MergeInvariant (base : Int) (s : TrainState) : Prop :=
  (∀ i ∈ s.text_idx, i < s.tok.max_key)
  ∧ (∀ r ∈ s.tok.merges, r.2 < s.tok.max_key ∧ r.1.1 < r.2 ∧ r.1.2 < r.2
      ∧ ∃ sl sr, um_find s.tok.itos r.1.1 = some sl ∧ um_find s.tok.itos r.1.2 = some sr
          ∧ um_find s.tok.itos r.2 = some (sl ++ sr))
  ∧ (∀ r ∈ s.tok.merges, occurrences r.1 s.text_idx = 0)
  ∧ (s.tok.merges.map Prod.fst).Nodup
  ∧ s.tok.merges.map Prod.snd = (List.range s.tok.merges.length).map (fun k : Nat => base + (k : Int))
  ∧ base + (s.tok.merges.length : Int) = s.tok.max_key

/-! ## Theorems: unordered maps -/

theorem um_find_assign {K V : Type} [DecidableEq K] (m : List (K × V)) (k k1 : K) (v : V) :
    um_find (um_assign m k v) k1 = if k = k1 then some v else um_find m k1 := by
  induction m with
  | nil => simp [um_assign, um_find]
  | cons e m ih =>
    obtain ⟨a, b⟩ := e
    by_cases h : a = k
    · subst h
      by_cases h1 : a = k1 <;> simp [um_assign, um_find, h1]
    · by_cases h1 : a = k1
      · subst h1
        have h2 : ¬ k = a := fun h3 => h h3.symm
        simp [um_assign, um_find, h, h2]
      · simp [um_assign, um_find, h, h1, ih]

theorem mem_um_assign {K V : Type} [DecidableEq K] (m : List (K × V)) (k : K) (v : V)
    (e : K × V) (h : e ∈ um_assign m k v) : e = (k, v) ∨ e ∈ m := by
  induction m with
  | nil => simpa [um_assign] using h
  | cons x m ih =>
    obtain ⟨a, b⟩ := x
    by_cases h1 : a = k
    · simp only [um_assign, h1, if_true, List.mem_cons] at h
      rcases h with h | h
      · exact Or.inl h
      · exact Or.inr (List.mem_cons_of_mem _ h)
    · simp only [um_assign, h1, if_false, List.mem_cons] at h
      rcases h with h | h
      · exact Or.inr (h ▸ List.mem_cons_self _ _)
      · rcases ih h with h2 | h2
        · exact Or.inl h2
        · exact Or.inr (List.mem_cons_of_mem _ h2)

theorem um_touch_of_find {K V : Type} [DecidableEq K] (m : List (K × V)) (k : K) (v dflt : V)
    (h : um_find m k = some v) : um_touch m k dflt = m := by
  simp [um_touch, h]

theorem um_find_mem {K V : Type} [DecidableEq K] (m : List (K × V)) (k : K) (v : V)
    (h : um_find m k = some v) : (k, v) ∈ m := by
  induction m with
  | nil => simp [um_find] at h
  | cons x m ih =>
    obtain ⟨a, b⟩ := x
    by_cases h1 : a = k
    · simp only [um_find, h1, if_true, Option.some.injEq] at h
      simp [h1, h]
    · simp only [um_find, h1, if_false] at h
      exact List.mem_cons_of_mem _ (ih h)

theorem um_find_isSome_of_mem {K V : Type} [DecidableEq K] (m : List (K × V)) (e : K × V)
    (h : e ∈ m) : ∃ v, um_find m e.1 = some v := by
  induction m with
  | nil => simp at h
  | cons x m ih =>
    obtain ⟨a, b⟩ := x
    by_cases h1 : a = e.1
    · exact ⟨b, by simp [um_find, h1]⟩
    · rcases List.mem_cons.1 h with h2 | h2
      · exact absurd (by rw [h2]) h1
      · obtain ⟨v, hv⟩ := ih h2
        exact ⟨v, by simp [um_find, h1, hv]⟩

theorem um_assign_keys_nodup {K V : Type} [DecidableEq K] (m : List (K × V)) (k : K) (v : V)
    (h : (m.map Prod.fst).Nodup) : ((um_assign m k v).map Prod.fst).Nodup := by
  induction m with
  | nil => simp [um_assign]
  | cons x m ih =>
    obtain ⟨a, b⟩ := x
    simp only [List.map_cons, List.nodup_cons] at h
    by_cases h1 : a = k
    · subst h1
      simpa [um_assign] using h
    · simp only [um_assign, h1, if_false, List.map_cons, List.nodup_cons]
      refine ⟨?_, ih h.2⟩
      intro hmem
      obtain ⟨e, he, hea⟩ := List.mem_map.1 hmem
      rcases mem_um_assign m k v e he with h2 | h2
      · exact h1 (by rw [← hea, h2])
      · exact h.1 (List.mem_map.2 ⟨e, h2, hea⟩)

theorem um_find_of_mem_nodup {K V : Type} [DecidableEq K] (m : List (K × V)) (e : K × V)
    (hn : (m.map Prod.fst).Nodup) (h : e ∈ m) : um_find m e.1 = some e.2 := by
  induction m with
  | nil => simp at h
  | cons x m ih =>
    obtain ⟨a, b⟩ := x
    simp only [List.map_cons, List.nodup_cons] at hn
    rcases List.mem_cons.1 h with h2 | h2
    · simp [h2, um_find]
    · have h3 : a ≠ e.1 := by
        intro h4
        exact hn.1 (List.mem_map.2 ⟨e, h2, h4.symm⟩)
      simp [um_find, h3, ih hn.2 h2]

/-! ## Theorems: `decode` -/

theorem decode_foldl (itos : List (Int × Str)) (idx : List Int) (acc : Str) :
    idx.foldl
      (fun decoded_str i =>
        match um_find itos i with
        | some s => decoded_str ++ s
        | none => decoded_str ++ INVALID_ID) acc
      = acc ++ (idx.map (id_text itos)).flatten := by
  induction idx generalizing acc with
  | nil => simp
  | cons i idx ih =>
    simp only [List.foldl_cons, List.map_cons, List.flatten_cons, ih]
    cases h : um_find itos i <;> simp [id_text, h]

theorem decode_eq (t : ByToken) (idx : List Int) :
    decode t idx = (idx.map (id_text t.itos)).flatten := by
  simp [decode, decode_foldl]

/-- C4. `decode` is a total function: for every tokenizer state and every id
sequence it returns the concatenation, in input order, of `itos[id]` for the
ids present in `itos` and of the literal `"<INVALID_ID>"` for the ids absent
from it. In particular `decode` of a concatenation is the concatenation of
the decodings, and `decode` of the empty sequence is the empty string. -/
theorem decode_concatenates (t : ByToken) (xs ys : List Int) :
    decode t xs
        = (xs.map (fun i => match um_find t.itos i with
                            | some s => s
                            | none => ['<', 'I', 'N', 'V', 'A', 'L', 'I', 'D', '_', 'I', 'D', '>'])).flatten
      ∧ decode t (xs ++ ys) = decode t xs ++ decode t ys
      ∧ decode t [] = [] := by
  refine ⟨?_, ?_, ?_⟩
  · rw [decode_eq]
    rfl
  · simp [decode_eq]
  · rfl

/-! ## Theorems: persistence -/

/-- C2. The document `save` writes is never loaded: `save` stores the
vocabulary under `model.vocab`, `from_file` reads `j["model"]["stoi"]`, finds
null there and the conversion to a map throws. This holds for every tokenizer
state, trained or not. -/
theorem from_file_save_fails (o : HashOrder) (t : ByToken) :
    from_file (save o t) = .error .type_error := by
  rfl

/-! ## Theorems: the precondition of `train` -/

/-- The configuration error is raised exactly when the number of distinct
characters plus one exceeds `vocab_size` read as a `size_t`. -/
theorem train_runtime_error_iff (o : HashOrder) (t : ByToken) (text_corpus : Str)
    (vocab_size : Int) :
    (∃ v u t1, train o t text_corpus vocab_size = .runtime_error v u t1)
      ↔ (text_corpus_unique text_corpus).length + 1 > to_size_t vocab_size := by
  unfold train
  simp only
  split
  · rename_i h
    simp [h]
  · rename_i h
    simp only [h, iff_false, not_exists]
    intro v u t1
    split <;> simp

/-- For a `vocab_size` that is not negative the configuration error is raised
exactly when `vocab_size` is less than the number of distinct characters plus
one. -/
theorem train_runtime_error_iff_of_nonneg (o : HashOrder) (t : ByToken) (text_corpus : Str)
    (vocab_size : Int) (h0 : 0 ≤ vocab_size) (h1 : vocab_size < 2147483648) :
    (∃ v u t1, train o t text_corpus vocab_size = .runtime_error v u t1)
      ↔ vocab_size < (text_corpus_unique text_corpus).length + 1 := by
  rw [train_runtime_error_iff]
  unfold to_size_t
  omega

/-- C5. With `vocab_size = -1` the call of `train` on the corpus `"ab"` (two
distinct characters, so `-1 < 2 + 1`) does not throw: the comparison
`text_corpus_unique.size() + 1 > vocab_size` converts `-1` to `2 ^ 64 - 1`.
The call returns normally with the three seeded tokens. -/
theorem train_negative_vocab_size (o : HashOrder) :
    (text_corpus_unique ['a', 'b']).length = 2
      ∧ ∃ final_vocab, train o ByToken.fresh ['a', 'b'] (-1)
          = .ok ⟨-1, 3, [(UNK, 0), (['a'], 1), (['b'], 2)],
                 [(0, UNK), (1, ['a']), (2, ['b'])], final_vocab, []⟩ := by
  refine ⟨by decide, sorted_vocab o [(UNK, 0), (['a'], 1), (['b'], 2)], ?_⟩
  rfl

/-- C6 (as stated, refuted). On a fresh tokenizer, `train` with the corpus
`"ab"` and `vocab_size = 1` throws, and the object it leaves has
`vocab_size = 1`, not the `0` it had before the call. -/
theorem train_error_changes_vocab_size :
    ∃ t, train HashOrder.insertion ByToken.fresh ['a', 'b'] 1 = .runtime_error 1 2 t
      ∧ t.vocab_size ≠ ByToken.fresh.vocab_size := by
  refine ⟨{ ByToken.fresh with vocab_size := 1 }, by decide, by decide⟩

/-- C6 (amended). When `train` throws the configuration error, the object is
left with `vocab_size` set to the requested value and every other field
(`max_key`, `stoi`, `itos`, `final_vocab`, `merges`) as it was before the
call. -/
theorem train_error_state (o : HashOrder) (t t1 : ByToken) (text_corpus : Str)
    (vocab_size v : Int) (u : Nat)
    (h : train o t text_corpus vocab_size = .runtime_error v u t1) :
    t1.vocab_size = vocab_size ∧ t1.max_key = t.max_key ∧ t1.stoi = t.stoi
      ∧ t1.itos = t.itos ∧ t1.final_vocab = t.final_vocab ∧ t1.merges = t.merges := by
  unfold train at h
  simp only at h
  split at h
  · simp only [TrainResult.runtime_error.injEq] at h
    obtain ⟨-, -, h3⟩ := h
    subst h3
    simp
  · split at h <;> simp at h

/-- Witness of C6 (amended): the failing call of `train("ab", 1)` on a fresh
tokenizer leaves `stoi` empty. -/
theorem train_error_state_witness :
    train HashOrder.insertion ByToken.fresh ['a', 'b'] 1
        = .runtime_error 1 2 { ByToken.fresh with vocab_size := 1 }
      ∧ ({ ByToken.fresh with vocab_size := 1 } : ByToken).stoi = ByToken.fresh.stoi :=
  ⟨by decide,
   (train_error_state HashOrder.insertion ByToken.fresh { ByToken.fresh with vocab_size := 1 }
      ['a', 'b'] 1 1 2 (by decide)).2.2.1⟩

/-! ## Theorems: counting pairs and selecting the greatest -/

theorem um_at_pair_incr (pc : List ((Int × Int) × Nat)) (p q : Int × Int) :
    um_at (pair_incr pc p) q 0 = um_at pc q 0 + if p = q then 1 else 0 := by
  unfold pair_incr um_at
  rw [um_find_assign]
  by_cases h : p = q
  · subst h
    simp
  · simp [h]

theorem um_at_pair_count_from (w : List Int) :
    ∀ (pc : List ((Int × Int) × Nat)) (q : Int × Int),
      um_at (pair_count_from pc w) q 0 = um_at pc q 0 + occurrences q w := by
  induction w with
  | nil => intro pc q; simp [pair_count_from, occurrences]
  | cons a w ih =>
    intro pc q
    cases w with
    | nil => simp [pair_count_from, occurrences]
    | cons b rest =>
      simp only [pair_count_from, occurrences]
      rw [ih, um_at_pair_incr]
      omega

theorem pair_count_from_keys_nodup (w : List Int) :
    ∀ (pc : List ((Int × Int) × Nat)), (pc.map Prod.fst).Nodup →
      ((pair_count_from pc w).map Prod.fst).Nodup := by
  induction w with
  | nil => intro pc h; simpa [pair_count_from] using h
  | cons a w ih =>
    intro pc h
    cases w with
    | nil => simpa [pair_count_from] using h
    | cons b rest =>
      simp only [pair_count_from]
      exact ih _ (um_assign_keys_nodup _ _ _ h)

/-- Every entry of `pair_count` holds the number of occurrences of its pair,
and that number is positive. -/
theorem pair_count_from_entry (w : List Int) (e : (Int × Int) × Nat)
    (h : e ∈ pair_count_from [] w) : e.2 = occurrences e.1 w ∧ 0 < e.2 := by
  have hn := pair_count_from_keys_nodup w [] (by simp)
  have hf := um_find_of_mem_nodup _ e hn h
  have hc := um_at_pair_count_from w [] e.1
  simp only [um_at, hf, Option.getD_some, um_find, Option.getD_none, Nat.zero_add] at hc
  refine ⟨hc, ?_⟩
  have hpos : ∀ (w : List Int) (pc : List ((Int × Int) × Nat)),
      (∀ x ∈ pc, 0 < x.2) → ∀ x ∈ pair_count_from pc w, 0 < x.2 := by
    intro w
    induction w with
    | nil => intro pc hp x hx; exact hp x (by simpa [pair_count_from] using hx)
    | cons a w ih =>
      intro pc hp x hx
      cases w with
      | nil => exact hp x (by simpa [pair_count_from] using hx)
      | cons b rest =>
        simp only [pair_count_from] at hx
        refine ih _ ?_ x hx
        intro y hy
        rcases mem_um_assign _ _ _ _ hy with h1 | h1
        · rw [h1]
          exact Nat.succ_pos _
        · exact hp y h1
  exact hpos w [] (by simp) e h

/-- A pair that is no key of `pair_count` does not occur. -/
theorem occurrences_eq_zero_of_not_key (w : List Int) (q : Int × Int)
    (h : um_find (pair_count_from [] w) q = none) : occurrences q w = 0 := by
  have hc := um_at_pair_count_from w [] q
  simp only [um_at, h, Option.getD_none, um_find, Nat.zero_add] at hc
  exact hc.symm

theorem max_element_from_mem (xs : List ((Int × Int) × Nat)) :
    ∀ x, max_element_from x xs ∈ x :: xs := by
  induction xs with
  | nil => intro x; simp [max_element_from]
  | cons y ys ih =>
    intro x
    simp only [max_element_from]
    split
    · exact List.mem_cons_of_mem _ (ih y)
    · rcases List.mem_cons.1 (ih x) with h | h
      · rw [h]
        exact List.mem_cons_self _ _
      · exact List.mem_cons_of_mem _ (List.mem_cons_of_mem _ h)

theorem max_element_from_ge (xs : List ((Int × Int) × Nat)) :
    ∀ x, x.2 ≤ (max_element_from x xs).2 ∧ ∀ y ∈ xs, y.2 ≤ (max_element_from x xs).2 := by
  induction xs with
  | nil => intro x; simp [max_element_from]
  | cons y ys ih =>
    intro x
    simp only [max_element_from]
    split
    · rename_i hlt
      refine ⟨le_trans (Nat.le_of_lt hlt) (ih y).1, ?_⟩
      intro z hz
      rcases List.mem_cons.1 hz with h | h
      · exact h ▸ (ih y).1
      · exact (ih y).2 z h
    · rename_i hlt
      refine ⟨(ih x).1, ?_⟩
      intro z hz
      rcases List.mem_cons.1 hz with h | h
      · exact h ▸ le_trans (Nat.le_of_not_lt hlt) (ih x).1
      · exact (ih x).2 z h

/-- What `std::max_element` returns is an element of the range, and no element
of the range has a greater count. -/
theorem max_element_spec (l : List ((Int × Int) × Nat)) (m : (Int × Int) × Nat)
    (h : max_element l = some m) : m ∈ l ∧ ∀ y ∈ l, y.2 ≤ m.2 := by
  cases l with
  | nil => simp [max_element] at h
  | cons x xs =>
    simp only [max_element, Option.some.injEq] at h
    subst h
    refine ⟨max_element_from_mem xs x, ?_⟩
    intro y hy
    rcases List.mem_cons.1 hy with h1 | h1
    · exact h1 ▸ (max_element_from_ge xs x).1
    · exact (max_element_from_ge xs x).2 y h1

/-- An entry whose count is strictly greater than every other count is
selected whatever the iteration order. -/
theorem max_element_unique (l pc : List ((Int × Int) × Nat)) (hp : l.Perm pc)
    (e : (Int × Int) × Nat) (he : e ∈ pc) (hgt : ∀ x ∈ pc, x ≠ e → x.2 < e.2) :
    max_element l = some e := by
  have hel : e ∈ l := hp.mem_iff.2 he
  cases hl : max_element l with
  | none =>
    cases l with
    | nil => simp at hel
    | cons x xs => simp [max_element] at hl
  | some m =>
    obtain ⟨hm, hmax⟩ := max_element_spec l m hl
    by_cases hme : m = e
    · rw [hme]
    · have h1 := hgt m (hp.mem_iff.1 hm) hme
      have h2 := hmax e hel
      omega

/-! ## Theorems: one round of the merge loop -/

/-- The shape of a round that runs to its end. -/
theorem train_step_more (o : HashOrder) (vocab_size : Int) (s s1 : TrainState)
    (h : train_step o vocab_size s = .more s1) :
    s.tok.max_key < vocab_size ∧
    ∃ pc max_pair n new_idx,
      pair_count s.text_idx = some pc ∧
      max_element (o.pairs pc) = some (max_pair, n) ∧
      new_text_idx max_pair s.tok.max_key 0 s.text_idx = some new_idx ∧
      s1 = record_merge s.tok max_pair new_idx := by
  unfold train_step at h
  split at h
  · rename_i hlt
    refine ⟨hlt, ?_⟩
    split at h
    · simp at h
    · rename_i pc hpc
      split at h
      · simp at h
      · split at h
        · simp at h
        · rename_i max_pair n hmax
          split at h
          · simp at h
          · rename_i new_idx hnew
            simp only [StepResult.more.injEq] at h
            exact ⟨pc, max_pair, n, new_idx, hpc, hmax, hnew, h.symm⟩
  · simp at h

/-- A round whose pieces are known. -/
theorem train_step_eq (o : HashOrder) (vocab_size : Int) (s : TrainState)
    (pc : List ((Int × Int) × Nat)) (e : (Int × Int) × Nat) (new_idx : List Int)
    (hlt : s.tok.max_key < vocab_size)
    (hpc : pair_count s.text_idx = some pc)
    (he : e ∈ pc) (hgt : ∀ x ∈ pc, x ≠ e → x.2 < e.2)
    (hnew : new_text_idx e.1 s.tok.max_key 0 s.text_idx = some new_idx) :
    train_step o vocab_size s = .more (record_merge s.tok e.1 new_idx) := by
  have hm : max_element (o.pairs pc) = some e :=
    max_element_unique _ _ (o.pairs_perm pc) e he hgt
  have hne : pc.isEmpty = false := by
    cases pc with
    | nil => simp at he
    | cons x xs => rfl
  unfold train_step
  simp only [hlt, if_true, hpc, hne, hm, hnew]
  rfl

/-! ## Theorems: the merge loop on concrete corpora -/

theorem train_loop_more (o : HashOrder) (vocab_size : Int) (fuel : Nat) (s s1 : TrainState)
    (h : train_step o vocab_size s = .more s1) :
    train_loop o vocab_size (fuel + 1) s = train_loop o vocab_size fuel s1 := by
  simp [train_loop, h]

/-- The corpus `"aaabdaaabac"` with `vocab_size = 6`: the state the merge loop
ends in. The pair `(1, 1)` occurs four times and every other pair at most
twice, so it is selected whatever the iteration order of `pair_count`. -/
theorem train_loop_aaabdaaabac (o : HashOrder) :
    train_loop o 6 1
        ⟨⟨6, 5, [(UNK, 0), (['a'], 1), (['b'], 2), (['c'], 3), (['d'], 4)],
            [(0, UNK), (1, ['a']), (2, ['b']), (3, ['c']), (4, ['d'])], [], []⟩,
          [1, 1, 1, 2, 4, 1, 1, 1, 2, 1, 3]⟩
      = some
        ⟨⟨6, 6, [(UNK, 0), (['a'], 1), (['b'], 2), (['c'], 3), (['d'], 4), (['a', 'a'], 5)],
            [(0, UNK), (1, ['a']), (2, ['b']), (3, ['c']), (4, ['d']), (5, ['a', 'a'])], [],
            [((1, 1), 5)]⟩,
          [5, 1, 2, 4, 5, 1, 2, 1]⟩ := by
  rw [train_loop_more o 6 0 _ _
    (train_step_eq o 6 _
      [((1, 1), 4), ((1, 2), 2), ((2, 4), 1), ((4, 1), 1), ((2, 1), 1), ((1, 3), 1)]
      ((1, 1), 4) [5, 1, 2, 4, 5, 1, 2, 1] (by decide) (by decide) (by decide) (by decide)
      (by decide))]
  rfl

/-- The call of `train` in terms of its merge loop. -/
theorem train_ok_of_loop (o : HashOrder) (t : ByToken) (text_corpus : Str) (vocab_size : Int)
    (s : TrainState)
    (hpre : ¬ (text_corpus_unique text_corpus).length + 1 > to_size_t vocab_size)
    (hloop :
      train_loop o vocab_size
          (vocab_size
            - (seed (add_unk { t with vocab_size := vocab_size })
                (text_corpus_unique text_corpus)).max_key).toNat
          ⟨seed (add_unk { t with vocab_size := vocab_size }) (text_corpus_unique text_corpus),
            initial_text_idx
              (seed (add_unk { t with vocab_size := vocab_size })
                (text_corpus_unique text_corpus)).stoi text_corpus⟩
        = some s) :
    train o t text_corpus vocab_size
      = .ok { s.tok with final_vocab := sorted_vocab o s.tok.stoi } := by
  unfold train
  simp only [hpre, if_false, hloop]

/-- The corpus `"aaabdaaabac"` with `vocab_size = 6`: the object `train` leaves. -/
theorem train_aaabdaaabac (o : HashOrder) :
    train o ByToken.fresh corpus_aaabdaaabac 6
      = .ok ⟨6, 6, [(UNK, 0), (['a'], 1), (['b'], 2), (['c'], 3), (['d'], 4), (['a', 'a'], 5)],
            [(0, UNK), (1, ['a']), (2, ['b']), (3, ['c']), (4, ['d']), (5, ['a', 'a'])],
            sorted_vocab o
              [(UNK, 0), (['a'], 1), (['b'], 2), (['c'], 3), (['d'], 4), (['a', 'a'], 5)],
            [((1, 1), 5)]⟩ :=
  train_ok_of_loop o ByToken.fresh corpus_aaabdaaabac 6 _ (by decide)
    (train_loop_aaabdaaabac o)

/-- C9. In every round of the training loop that performs a merge, the
selected pair occurs in the working sequence and no pair has more occurrences
among the adjacent pairs of the working sequence. On the corpus
`"aaabdaaabac"` with `vocab_size = 6`, from a fresh tokenizer, `train` records
exactly one merge rule, `(1, 1) ↦ 5`, and the string of id `5` is `"aa"`. -/
theorem selected_pair_most_frequent (o : HashOrder) :
    (∀ (vocab_size : Int) (s s1 : TrainState), train_step o vocab_size s = .more s1 →
      ∃ max_pair new_idx,
        new_text_idx max_pair s.tok.max_key 0 s.text_idx = some new_idx
        ∧ s1 = record_merge s.tok max_pair new_idx
        ∧ 0 < occurrences max_pair s.text_idx
        ∧ ∀ q, occurrences q s.text_idx ≤ occurrences max_pair s.text_idx)
    ∧ ∃ t, train o ByToken.fresh ['a', 'a', 'a', 'b', 'd', 'a', 'a', 'a', 'b', 'a', 'c'] 6 = .ok t
        ∧ t.merges = [((1, 1), 5)] ∧ um_find t.itos 5 = some ['a', 'a'] := by
  refine ⟨?_, _, train_aaabdaaabac o, rfl, rfl⟩
  intro vocab_size s s1 h
  obtain ⟨-, pc, max_pair, n, new_idx, hpc, hmax, hnew, hs1⟩ := train_step_more o vocab_size s s1 h
  refine ⟨max_pair, new_idx, hnew, hs1, ?_⟩
  have hpc1 : pc = pair_count_from [] s.text_idx := by
    unfold pair_count at hpc
    split at hpc
    · exact (Option.some.inj hpc).symm
    · simp at hpc
  obtain ⟨hmem, hge⟩ := max_element_spec _ _ hmax
  have hmem1 : (max_pair, n) ∈ pair_count_from [] s.text_idx :=
    hpc1 ▸ (o.pairs_perm pc).mem_iff.1 hmem
  obtain ⟨hn, hpos⟩ := pair_count_from_entry _ _ hmem1
  simp only at hn hpos
  refine ⟨hn ▸ hpos, ?_⟩
  intro q
  cases hq : um_find (pair_count_from [] s.text_idx) q with
  | none =>
    rw [occurrences_eq_zero_of_not_key _ _ hq]
    exact Nat.zero_le _
  | some m =>
    have hqm : (q, m) ∈ pair_count_from [] s.text_idx := um_find_mem _ _ _ hq
    have h1 := (pair_count_from_entry _ _ hqm).1
    have h2 := hge (q, m) ((o.pairs_perm pc).mem_iff.2 (hpc1 ▸ hqm))
    simp only at h1 h2
    omega

/-- The corpus `"<U<UN<UNK<UNK><UNK><UNK>"` with `vocab_size = 10`: the state
the merge loop ends in. In each of the four rounds one pair has strictly more
occurrences than every other (`(1, 5)` six, `(6, 4)` five, `(7, 3)` three,
`(8, 2)` two), so the rounds do not depend on the iteration order of
`pair_count`. The last round records the string `"<UNK>"` under the id `9`
and overwrites `stoi["<UNK>"]`. -/
theorem train_loop_unk (o : HashOrder) :
    train_loop o 10 4
        ⟨⟨10, 6, [(UNK, 0), (['<'], 1), (['>'], 2), (['K'], 3), (['N'], 4), (['U'], 5)],
            [(0, UNK), (1, ['<']), (2, ['>']), (3, ['K']), (4, ['N']), (5, ['U'])], [], []⟩,
          [1, 5, 1, 5, 4, 1, 5, 4, 3, 1, 5, 4, 3, 2, 1, 5, 4, 3, 2, 1, 5, 4, 3, 2]⟩
      = some
        ⟨⟨10, 10,
            [(UNK, 9), (['<'], 1), (['>'], 2), (['K'], 3), (['N'], 4), (['U'], 5),
              (['<', 'U'], 6), (['<', 'U', 'N'], 7), (['<', 'U', 'N', 'K'], 8)],
            [(0, UNK), (1, ['<']), (2, ['>']), (3, ['K']), (4, ['N']), (5, ['U']),
              (6, ['<', 'U']), (7, ['<', 'U', 'N']), (8, ['<', 'U', 'N', 'K']), (9, UNK)],
            [], [((1, 5), 6), ((6, 4), 7), ((7, 3), 8), ((8, 2), 9)]⟩,
          [6, 7, 8, 9, 9]⟩ := by
  rw [train_loop_more o 10 3 _ _
    (train_step_eq o 10 _
      [((1, 5), 6), ((5, 1), 1), ((5, 4), 5), ((4, 1), 1), ((4, 3), 4), ((3, 1), 1),
        ((3, 2), 3), ((2, 1), 2)]
      ((1, 5), 6) [6, 6, 4, 6, 4, 3, 6, 4, 3, 2, 6, 4, 3, 2, 6, 4, 3]
      (by decide) (by decide) (by decide) (by decide) (by decide))]
  rw [train_loop_more o 10 2 _ _
    (train_step_eq o 10 _
      [((6, 6), 1), ((6, 4), 5), ((4, 6), 1), ((4, 3), 4), ((3, 6), 1), ((3, 2), 2),
        ((2, 6), 2)]
      ((6, 4), 5) [6, 7, 7, 3, 7, 3, 2, 7, 3, 2, 7]
      (by decide) (by decide) (by decide) (by decide) (by decide))]
  rw [train_loop_more o 10 1 _ _
    (train_step_eq o 10 _
      [((6, 7), 1), ((7, 7), 1), ((7, 3), 3), ((3, 7), 1), ((3, 2), 2), ((2, 7), 2)]
      ((7, 3), 3) [6, 7, 8, 8, 2, 8, 2]
      (by decide) (by decide) (by decide) (by decide) (by decide))]
  rw [train_loop_more o 10 0 _ _
    (train_step_eq o 10 _
      [((6, 7), 1), ((7, 8), 1), ((8, 8), 1), ((8, 2), 2), ((2, 8), 1)]
      ((8, 2), 2) [6, 7, 8, 9, 9]
      (by decide) (by decide) (by decide) (by decide) (by decide))]
  rfl

/-- The corpus `"<U<UN<UNK<UNK><UNK><UNK>"` with `vocab_size = 10`: the object
`train` leaves. -/
theorem train_unk (o : HashOrder) :
    train o ByToken.fresh corpus_unk 10
      = .ok ⟨10, 10,
            [(UNK, 9), (['<'], 1), (['>'], 2), (['K'], 3), (['N'], 4), (['U'], 5),
              (['<', 'U'], 6), (['<', 'U', 'N'], 7), (['<', 'U', 'N', 'K'], 8)],
            [(0, UNK), (1, ['<']), (2, ['>']), (3, ['K']), (4, ['N']), (5, ['U']),
              (6, ['<', 'U']), (7, ['<', 'U', 'N']), (8, ['<', 'U', 'N', 'K']), (9, UNK)],
            sorted_vocab o
              [(UNK, 9), (['<'], 1), (['>'], 2), (['K'], 3), (['N'], 4), (['U'], 5),
                (['<', 'U'], 6), (['<', 'U', 'N'], 7), (['<', 'U', 'N', 'K'], 8)],
            [((1, 5), 6), ((6, 4), 7), ((7, 3), 8), ((8, 2), 9)]⟩ :=
  train_ok_of_loop o ByToken.fresh corpus_unk 10 _ (by decide) (train_loop_unk o)

/-! ## Theorems: the defects on concrete inputs -/

/-- C7. On the empty corpus with `vocab_size = 2` (which satisfies
`vocab_size ≥ distinct characters + 1 = 1`) `train` does not succeed: the
counting loop compares `i = 0` with `text_idx.size() - 1 = 2 ^ 64 - 1` and
reads `text_idx[0]` of the empty vector. On the corpus
`"<U<UN<UNK<UNK><UNK><UNK>"` with `vocab_size = 10` the call succeeds with
`max_key = 10` and ten entries in `itos`, but `stoi` has nine entries. -/
theorem train_admissible_target_fails (o : HashOrder) :
    ((text_corpus_unique []).length + 1 ≤ 2
      ∧ size_minus_one ([] : List Int).length = 18446744073709551615
      ∧ train o ByToken.fresh [] 2 = .undefined)
    ∧ ((text_corpus_unique corpus_unk).length + 1 ≤ 10
      ∧ ∃ t, train o ByToken.fresh corpus_unk 10 = .ok t
          ∧ t.max_key = 10 ∧ t.itos.length = 10 ∧ t.stoi.length = 9) := by
  refine ⟨⟨by decide, by decide, ?_⟩, by decide, _, train_unk o, rfl, rfl, rfl⟩
  rfl

/-- C10. After the successful call of `train` on the corpus
`"<U<UN<UNK<UNK><UNK><UNK>"` with `vocab_size = 10`, `itos[0]` is `"<UNK>"`
but `stoi["<UNK>"]` is `9`: the fourth merge produces the string `"<UNK>"`
and `stoi[merged_pair] = max_key` overwrites the entry of the unknown token.
The two maps are not inverse to each other and have different sizes. -/
theorem stoi_itos_not_inverse (o : HashOrder) :
    ∃ t, train o ByToken.fresh corpus_unk 10 = .ok t
      ∧ um_find t.itos 0 = some UNK ∧ um_find t.stoi UNK = some 9
      ∧ t.stoi.length = 9 ∧ t.itos.length = 10 :=
  ⟨_, train_unk o, rfl, rfl, rfl, rfl⟩

theorem first_match_none (final_vocab : List (Str × Int)) (rest : Str)
    (h : ∀ e ∈ final_vocab, ¬ e.1 <+: rest) : first_match final_vocab rest = none := by
  induction final_vocab with
  | nil => rfl
  | cons e fv ih =>
    obtain ⟨substr, subkey⟩ := e
    have h1 : ¬ substr <+: rest := h (substr, subkey) (List.mem_cons_self _ _)
    simp only [first_match, h1, if_false]
    exact ih (fun e he => h e (List.mem_cons_of_mem _ he))

theorem mem_sorted_vocab (o : HashOrder) (stoi : List (Str × Int)) (e : Str × Int) :
    e ∈ sorted_vocab o stoi ↔ e ∈ stoi := by
  unfold sorted_vocab
  rw [List.mem_insertionSort]
  exact (o.strs_perm stoi).mem_iff

/-- C3. The character `x` does not occur in the corpus
`"<U<UN<UNK<UNK><UNK><UNK>"`, and after the successful call of `train` on that
corpus with `vocab_size = 10`, `encode("x")` returns `[9]`, not `[0]`: the
unmatched branch pushes `stoi["<UNK>"]`, which the fourth merge has
overwritten with `9`. -/
theorem encode_absent_char_not_zero (o : HashOrder) :
    'x' ∉ corpus_unk
      ∧ ∃ t, train o ByToken.fresh corpus_unk 10 = .ok t ∧ encode t ['x'] = some ([9], t) := by
  refine ⟨by decide, _, train_unk o, ?_⟩
  have h : first_match
      (sorted_vocab o
        [(UNK, 9), (['<'], 1), (['>'], 2), (['K'], 3), (['N'], 4), (['U'], 5),
          (['<', 'U'], 6), (['<', 'U', 'N'], 7), (['<', 'U', 'N', 'K'], 8)]) ['x'] = none := by
    apply first_match_none
    intro e he
    rw [mem_sorted_vocab] at he
    revert e
    decide
  simp only [encode, encode_loop, List.length_singleton, h]
  rfl

/-! ## Theorems: invariants of `train` -/

theorem consistent_assign (stoi : List (Str × Int)) (itos : List (Int × Str)) (max_key : Int)
    (str : Str) (hne : str ≠ []) (h : Consistent stoi itos max_key) :
    Consistent (um_assign stoi str max_key) (um_assign itos max_key str) (max_key + 1) := by
  intro e he
  rcases mem_um_assign _ _ _ _ he with h1 | h1
  · subst h1
    refine ⟨by simp, ?_, hne⟩
    rw [um_find_assign]
    simp
  · obtain ⟨hlt, hfind, hne1⟩ := h e h1
    refine ⟨by omega, ?_, hne1⟩
    rw [um_find_assign]
    have h2 : ¬ max_key = e.2 := by omega
    simp [h2, hfind]

theorem covers_assign (stoi : List (Str × Int)) (text : Str) (str : Str) (k : Int)
    (h : Covers stoi text) : Covers (um_assign stoi str k) text := by
  intro c hc
  obtain ⟨k1, hk1⟩ := h c hc
  rw [um_find_assign]
  by_cases h1 : str = [c]
  · exact ⟨k, by simp [h1]⟩
  · exact ⟨k1, by simp [h1, hk1]⟩

theorem seed_consistent (u : List Char) :
    ∀ t : ByToken, Consistent t.stoi t.itos t.max_key →
      Consistent (seed t u).stoi (seed t u).itos (seed t u).max_key := by
  induction u with
  | nil => intro t h; exact h
  | cons ch rest ih =>
    intro t h
    simp only [seed]
    exact ih _ (consistent_assign _ _ _ [ch] (by simp) h)

theorem seed_covers_mono (u : List Char) (text : Str) :
    ∀ t : ByToken, Covers t.stoi text → Covers (seed t u).stoi text := by
  induction u with
  | nil => intro t h; exact h
  | cons ch rest ih =>
    intro t h
    simp only [seed]
    exact ih _ (covers_assign _ _ _ _ h)

theorem seed_covers (u : List Char) : ∀ t : ByToken, Covers (seed t u).stoi u := by
  induction u with
  | nil => intro t c hc; simp at hc
  | cons ch rest ih =>
    intro t c hc
    rcases List.mem_cons.1 hc with h | h
    · subst h
      simp only [seed]
      refine seed_covers_mono rest [c] _ ?_ c (List.mem_singleton_self c)
      intro d hd
      rw [List.mem_singleton] at hd
      subst hd
      exact ⟨t.max_key, by rw [um_find_assign]; simp⟩
    · simp only [seed]
      exact ih _ c h

/-- Distinct characters have distinct values: the order of `char` is total. -/
theorem char_value_injective : Function.Injective char_value := by
  intro a b h
  have hnat : a.toNat = b.toNat := by
    unfold char_value at h
    split at h <;> split at h <;> omega
  exact Char.ext (UInt32.ext hnat)

theorem mem_set_insert (c x : Char) (l : List Char) :
    x ∈ set_insert c l ↔ x = c ∨ x ∈ l := by
  induction l with
  | nil => simp [set_insert]
  | cons y ys ih =>
    simp only [set_insert]
    split
    · simp
    · split
      · simp only [List.mem_cons, ih]
        tauto
      · rename_i h1 h2
        have hcy : c = y := char_value_injective (by omega)
        subst hcy
        simp

theorem mem_foldl_set_insert (text : Str) :
    ∀ (l : List Char) (x : Char),
      x ∈ text.foldl (fun s c => set_insert c s) l ↔ x ∈ l ∨ x ∈ text := by
  induction text with
  | nil => intro l x; simp
  | cons c cs ih =>
    intro l x
    simp only [List.foldl_cons, ih, mem_set_insert, List.mem_cons]
    tauto

/-- The set of the characters of the corpus holds exactly the characters that
occur in it. -/
theorem mem_text_corpus_unique (text_corpus : Str) (x : Char) :
    x ∈ text_corpus_unique text_corpus ↔ x ∈ text_corpus := by
  unfold text_corpus_unique
  rw [mem_foldl_set_insert]
  simp

theorem occurrences_pos_mem (p : Int × Int) (w : List Int) (h : 0 < occurrences p w) :
    p.1 ∈ w ∧ p.2 ∈ w := by
  induction w with
  | nil => simp [occurrences] at h
  | cons a w ih =>
    cases w with
    | nil => simp [occurrences] at h
    | cons b rest =>
      simp only [occurrences] at h
      by_cases h1 : (a, b) = p
      · subst h1
        simp
      · simp only [h1, if_false, Nat.zero_add] at h
        obtain ⟨h2, h3⟩ := ih h
        exact ⟨List.mem_cons_of_mem _ h2, List.mem_cons_of_mem _ h3⟩

theorem mem_new_text_idx (max_pair : Int × Int) (max_key : Int) (n : Nat) :
    ∀ (w : List Int), w.length ≤ n → ∀ (i : Nat) (new_idx : List Int),
      new_text_idx max_pair max_key i w = some new_idx →
      ∀ x ∈ new_idx, x = max_key ∨ x ∈ w := by
  induction n with
  | zero =>
    intro w hw i new_idx h x hx
    have : w = [] := List.length_eq_zero.1 (Nat.le_zero.1 hw)
    subst this
    simp [new_text_idx] at h
    subst h
    simp at hx
  | succ n ih =>
    intro w hw i new_idx h x hx
    match w, hw, h with
    | [], _, h =>
      simp [new_text_idx] at h
      subst h
      simp at hx
    | [a], _, h =>
      simp [new_text_idx] at h
      subst h
      simp at hx
    | a :: b :: rest, hw, h =>
      simp only [new_text_idx] at h
      split at h
      · split at h
        · simp only [Option.map_eq_some'] at h
          obtain ⟨r, hr, hnew⟩ := h
          subst hnew
          rcases List.mem_cons.1 hx with h1 | h1
          · exact Or.inl h1
          · have hlen : rest.length ≤ n := by
              simp only [List.length_cons] at hw
              omega
            rcases ih rest hlen _ r hr x h1 with h2 | h2
            · exact Or.inl h2
            · exact Or.inr (List.mem_cons_of_mem _ (List.mem_cons_of_mem _ h2))
        · simp at h
      · simp only [Option.map_eq_some'] at h
        obtain ⟨r, hr, hnew⟩ := h
        subst hnew
        rcases List.mem_cons.1 hx with h1 | h1
        · exact Or.inr (h1 ▸ List.mem_cons_self _ _)
        · have hlen : (b :: rest).length ≤ n := by
            simp only [List.length_cons] at hw ⊢
            omega
          rcases ih (b :: rest) hlen _ r hr x h1 with h2 | h2
          · exact Or.inl h2
          · exact Or.inr (List.mem_cons_of_mem _ h2)

theorem train_step_done (o : HashOrder) (vocab_size : Int) (s s1 : TrainState)
    (h : train_step o vocab_size s = .done s1) : s1 = s := by
  unfold train_step at h
  split at h
  · split at h
    · simp at h
    · split at h
      · simp only [StepResult.done.injEq] at h
        exact h.symm
      · split at h
        · simp at h
        · split at h <;> simp at h
  · simp only [StepResult.done.injEq] at h
    exact h.symm

/-- A property of the loop state that every completed round preserves holds
when the loop is left. -/
theorem train_loop_invariant (o : HashOrder) (vocab_size : Int) (P : TrainState → Prop)
    (hstep : ∀ s s1, P s → train_step o vocab_size s = .more s1 → P s1) :
    ∀ (fuel : Nat) (s s1 : TrainState), P s → train_loop o vocab_size fuel s = some s1 → P s1 := by
  intro fuel
  induction fuel with
  | zero =>
    intro s s1 hP h
    simp only [train_loop, Option.some.injEq] at h
    exact h ▸ hP
  | succ n ih =>
    intro s s1 hP h
    simp only [train_loop] at h
    split at h
    · rename_i s2 hs2
      simp only [Option.some.injEq] at h
      rw [← h, train_step_done o vocab_size s s2 hs2]
      exact hP
    · rename_i s2 hs2
      exact ih s2 s1 (hstep s s2 hP hs2) h
    · simp at h

/-- The pair a round selects occurs in the working sequence. -/
theorem train_step_pair_mem (o : HashOrder) (s : TrainState) (pc : List ((Int × Int) × Nat))
    (max_pair : Int × Int) (n : Nat) (hpc : pair_count s.text_idx = some pc)
    (hmax : max_element (o.pairs pc) = some (max_pair, n)) :
    max_pair.1 ∈ s.text_idx ∧ max_pair.2 ∈ s.text_idx := by
  have hpc1 : pc = pair_count_from [] s.text_idx := by
    unfold pair_count at hpc
    split at hpc
    · exact (Option.some.inj hpc).symm
    · simp at hpc
  have hmem : (max_pair, n) ∈ pair_count_from [] s.text_idx :=
    hpc1 ▸ (o.pairs_perm pc).mem_iff.1 (max_element_spec _ _ hmax).1
  obtain ⟨hn, hpos⟩ := pair_count_from_entry _ _ hmem
  simp only at hn hpos
  exact occurrences_pos_mem _ _ (hn ▸ hpos)

theorem train_step_loop_invariant (o : HashOrder) (vocab_size : Int) (s s1 : TrainState)
    (hinv : LoopInvariant s) (h : train_step o vocab_size s = .more s1) : LoopInvariant s1 := by
  obtain ⟨-, pc, max_pair, n, new_idx, hpc, hmax, hnew, hs1⟩ := train_step_more o vocab_size s s1 h
  obtain ⟨hl, hr⟩ := train_step_pair_mem o s pc max_pair n hpc hmax
  obtain ⟨hcons, htext⟩ := hinv
  obtain ⟨sl, hsl, hsl_ne⟩ := htext _ hl
  obtain ⟨sr, hsr, -⟩ := htext _ hr
  have hmerged : um_at s.tok.itos max_pair.1 [] ++ um_at s.tok.itos max_pair.2 [] ≠ [] := by
    simp only [um_at, hsl, hsr, Option.getD_some]
    intro h0
    exact hsl_ne (List.append_eq_nil.1 h0).1
  subst hs1
  have htouch : um_touch (um_touch s.tok.itos max_pair.1 []) max_pair.2 [] = s.tok.itos := by
    rw [um_touch_of_find _ _ _ _ hsl, um_touch_of_find _ _ _ _ hsr]
  refine ⟨?_, ?_⟩
  · simp only [record_merge, htouch]
    exact consistent_assign _ _ _ _ hmerged hcons
  intro i hi
  simp only [record_merge, htouch] at hi ⊢
  rw [um_find_assign]
  by_cases h1 : s.tok.max_key = i
  · exact ⟨_, by simp only [h1, if_true], hmerged⟩
  · rcases mem_new_text_idx max_pair s.tok.max_key _ _ (le_refl _) 0 new_idx hnew i hi with h2 | h2
    · exact absurd h2.symm h1
    · obtain ⟨str, hstr, hne⟩ := htext i h2
      exact ⟨str, by simp only [h1, if_false, hstr], hne⟩

theorem train_step_covers (o : HashOrder) (vocab_size : Int) (text : Str) (s s1 : TrainState)
    (hcov : Covers s.tok.stoi text) (h : train_step o vocab_size s = .more s1) :
    Covers s1.tok.stoi text := by
  obtain ⟨-, pc, max_pair, n, new_idx, -, -, -, hs1⟩ := train_step_more o vocab_size s s1 h
  subst hs1
  exact covers_assign _ _ _ _ hcov

/-- The shape of a successful call of `train`. -/
theorem train_ok_inv (o : HashOrder) (t t1 : ByToken) (text_corpus : Str) (vocab_size : Int)
    (h : train o t text_corpus vocab_size = .ok t1) :
    ¬ (text_corpus_unique text_corpus).length + 1 > to_size_t vocab_size ∧
    ∃ s,
      train_loop o vocab_size
          (vocab_size
            - (seed (add_unk { t with vocab_size := vocab_size })
                (text_corpus_unique text_corpus)).max_key).toNat
          ⟨seed (add_unk { t with vocab_size := vocab_size }) (text_corpus_unique text_corpus),
            initial_text_idx
              (seed (add_unk { t with vocab_size := vocab_size })
                (text_corpus_unique text_corpus)).stoi text_corpus⟩
        = some s
      ∧ t1 = { s.tok with final_vocab := sorted_vocab o s.tok.stoi } := by
  unfold train at h
  simp only at h
  split at h
  · simp at h
  · rename_i hpre
    refine ⟨hpre, ?_⟩
    split at h
    · simp at h
    · rename_i s hs
      simp only [TrainResult.ok.injEq] at h
      exact ⟨s, hs, h.symm⟩

/-- The state in which the merge loop of a call on a fresh tokenizer starts
satisfies the loop invariant, and every character of the corpus is a key of
`stoi`. -/
theorem initial_state_invariant (text_corpus : Str) (vocab_size : Int) :
    LoopInvariant
        ⟨seed (add_unk { ByToken.fresh with vocab_size := vocab_size })
            (text_corpus_unique text_corpus),
          initial_text_idx
            (seed (add_unk { ByToken.fresh with vocab_size := vocab_size })
              (text_corpus_unique text_corpus)).stoi text_corpus⟩
      ∧ Covers
          (seed (add_unk { ByToken.fresh with vocab_size := vocab_size })
            (text_corpus_unique text_corpus)).stoi text_corpus := by
  have hcons : Consistent
      (seed (add_unk { ByToken.fresh with vocab_size := vocab_size })
        (text_corpus_unique text_corpus)).stoi
      (seed (add_unk { ByToken.fresh with vocab_size := vocab_size })
        (text_corpus_unique text_corpus)).itos
      (seed (add_unk { ByToken.fresh with vocab_size := vocab_size })
        (text_corpus_unique text_corpus)).max_key := by
    apply seed_consistent
    intro e he
    simp only [add_unk, ByToken.fresh, um_assign, List.mem_singleton] at he
    subst he
    simp [add_unk, ByToken.fresh, um_assign, um_find, UNK]
  have hcov : Covers
      (seed (add_unk { ByToken.fresh with vocab_size := vocab_size })
        (text_corpus_unique text_corpus)).stoi text_corpus := by
    intro c hc
    exact seed_covers _ _ c ((mem_text_corpus_unique text_corpus c).2 hc)
  refine ⟨⟨hcons, ?_⟩, hcov⟩
  intro i hi
  simp only [initial_text_idx, List.mem_map] at hi
  obtain ⟨ch, hch, hi⟩ := hi
  obtain ⟨k, hk⟩ := hcov ch hch
  simp only [um_at, hk, Option.getD_some] at hi
  subst hi
  obtain ⟨-, hfind, hne⟩ := hcons _ (um_find_mem _ _ _ hk)
  exact ⟨[ch], hfind, hne⟩

/-- After a successful call of `train` on a fresh tokenizer the maps are
consistent, every character of the corpus is a key of `stoi`, and the lookup
table holds the entries of `stoi`. -/
theorem train_ok_invariant (o : HashOrder) (t : ByToken) (text_corpus : Str) (vocab_size : Int)
    (h : train o ByToken.fresh text_corpus vocab_size = .ok t) :
    Consistent t.stoi t.itos t.max_key ∧ Covers t.stoi text_corpus
      ∧ ∀ e, e ∈ t.final_vocab ↔ e ∈ t.stoi := by
  obtain ⟨-, s, hloop, ht⟩ := train_ok_inv o _ _ _ _ h
  obtain ⟨hinv0, hcov0⟩ := initial_state_invariant text_corpus vocab_size
  have hinv := train_loop_invariant o vocab_size LoopInvariant
    (train_step_loop_invariant o vocab_size) _ _ _ hinv0 hloop
  have hcov := train_loop_invariant o vocab_size (fun s => Covers s.tok.stoi text_corpus)
    (train_step_covers o vocab_size text_corpus) _ _ _ hcov0 hloop
  subst ht
  exact ⟨hinv.1, hcov, mem_sorted_vocab o _⟩

/-! ## Theorems: `encode` -/

theorem first_match_some (final_vocab : List (Str × Int)) (rest : Str) (e : Str × Int)
    (h : first_match final_vocab rest = some e) : e ∈ final_vocab ∧ e.1 <+: rest := by
  induction final_vocab with
  | nil => simp [first_match] at h
  | cons x fv ih =>
    obtain ⟨substr, subkey⟩ := x
    simp only [first_match] at h
    split at h
    · rename_i hp
      simp only [Option.some.injEq] at h
      subst h
      exact ⟨List.mem_cons_self _ _, hp⟩
    · obtain ⟨h1, h2⟩ := ih h
      exact ⟨List.mem_cons_of_mem _ h1, h2⟩

/-- When every entry of the lookup table is non-empty and mirrored in `itos`,
and every character of the text has a one-character entry, the cursor loop
returns, leaves `stoi` alone, and the strings of the ids it pushes add up to
the text. -/
theorem encode_loop_roundtrip (final_vocab : List (Str × Int)) (itos : List (Int × Str))
    (hfv : ∀ e ∈ final_vocab, e.1 ≠ [] ∧ um_find itos e.2 = some e.1) :
    ∀ (fuel : Nat) (rest : Str) (stoi : List (Str × Int)), rest.length ≤ fuel →
      (∀ c ∈ rest, ∃ k, ([c], k) ∈ final_vocab) →
      ∃ ids, encode_loop final_vocab fuel rest stoi = some (ids, stoi)
        ∧ (ids.map (id_text itos)).flatten = rest := by
  intro fuel
  induction fuel with
  | zero =>
    intro rest stoi hlen _
    have : rest = [] := List.length_eq_zero.1 (Nat.le_zero.1 hlen)
    subst this
    exact ⟨[], by simp [encode_loop], by simp⟩
  | succ n ih =>
    intro rest stoi hlen hcov
    cases rest with
    | nil => exact ⟨[], by simp [encode_loop], by simp⟩
    | cons c cs =>
      cases hm : first_match final_vocab (c :: cs) with
      | none =>
        exfalso
        obtain ⟨k, hk⟩ := hcov c (List.mem_cons_self _ _)
        have hnone : ∀ e ∈ final_vocab, ¬ e.1 <+: c :: cs := by
          intro e he hp
          have hsome : ∃ e1, first_match final_vocab (c :: cs) = some e1 := by
            clear hfv hcov hk hm ih
            induction final_vocab with
            | nil => simp at he
            | cons x fv ih2 =>
              obtain ⟨substr, subkey⟩ := x
              simp only [first_match]
              split
              · exact ⟨_, rfl⟩
              · rename_i hnp
                rcases List.mem_cons.1 he with h1 | h1
                · subst h1
                  exact absurd hp hnp
                · exact ih2 h1
          obtain ⟨e1, he1⟩ := hsome
          rw [hm] at he1
          simp at he1
        exact hnone _ hk (by simp)
      | some e =>
        obtain ⟨substr, subkey⟩ := e
        obtain ⟨hmem, hpre⟩ := first_match_some _ _ _ hm
        obtain ⟨hne, hfind⟩ := hfv _ hmem
        simp only at hne hfind hpre
        have hlen0 : substr.length ≠ 0 := fun h0 => hne (List.length_eq_zero.1 h0)
        have hdrop : ((c :: cs).drop substr.length).length ≤ n := by
          simp only [List.length_drop, List.length_cons] at hlen ⊢
          omega
        have hcov1 : ∀ d ∈ (c :: cs).drop substr.length, ∃ k, ([d], k) ∈ final_vocab :=
          fun d hd => hcov d (List.mem_of_mem_drop hd)
        obtain ⟨ids, hids, hflat⟩ := ih ((c :: cs).drop substr.length) stoi hdrop hcov1
        refine ⟨subkey :: ids, ?_, ?_⟩
        · simp only [encode_loop, hm, hlen0, if_false, hids, Option.map_some']
        · simp only [List.map_cons, List.flatten_cons, hflat, id_text, hfind]
          exact List.prefix_iff_eq_append.1 hpre

/-- C1. After a successful call of `train` on a freshly constructed tokenizer,
for every string `s` all of whose characters occur in the corpus, `encode(s)`
returns (leaving the object as it is) and `decode` of the returned ids is
`s`. -/
theorem decode_encode_roundtrip (o : HashOrder) (text_corpus : Str) (vocab_size : Int)
    (t : ByToken) (h : train o ByToken.fresh text_corpus vocab_size = .ok t)
    (s : Str) (hs : ∀ c ∈ s, c ∈ text_corpus) :
    ∃ ids, encode t s = some (ids, t) ∧ decode t ids = s := by
  obtain ⟨hcons, hcov, hfv⟩ := train_ok_invariant o t text_corpus vocab_size h
  have h1 : ∀ e ∈ t.final_vocab, e.1 ≠ [] ∧ um_find t.itos e.2 = some e.1 := by
    intro e he
    obtain ⟨-, hfind, hne⟩ := hcons e ((hfv e).1 he)
    exact ⟨hne, hfind⟩
  have h2 : ∀ c ∈ s, ∃ k, ([c], k) ∈ t.final_vocab := by
    intro c hc
    obtain ⟨k, hk⟩ := hcov c (hs c hc)
    exact ⟨k, (hfv _).2 (um_find_mem _ _ _ hk)⟩
  obtain ⟨ids, hids, hflat⟩ :=
    encode_loop_roundtrip t.final_vocab t.itos h1 s.length s t.stoi (le_refl _) h2
  refine ⟨ids, ?_, ?_⟩
  · simp only [encode, hids, Option.map_some']
  · rw [decode_eq, hflat]

/-- Witness of C1: the tokenizer trained on `"aaabdaaabac"` with
`vocab_size = 6` and the string `"aaad"`. -/
theorem decode_encode_roundtrip_witness :
    ∃ ids,
      encode
          ⟨6, 6, [(UNK, 0), (['a'], 1), (['b'], 2), (['c'], 3), (['d'], 4), (['a', 'a'], 5)],
            [(0, UNK), (1, ['a']), (2, ['b']), (3, ['c']), (4, ['d']), (5, ['a', 'a'])],
            sorted_vocab HashOrder.insertion
              [(UNK, 0), (['a'], 1), (['b'], 2), (['c'], 3), (['d'], 4), (['a', 'a'], 5)],
            [((1, 1), 5)]⟩
          ['a', 'a', 'a', 'd']
        = some (ids,
          ⟨6, 6, [(UNK, 0), (['a'], 1), (['b'], 2), (['c'], 3), (['d'], 4), (['a', 'a'], 5)],
            [(0, UNK), (1, ['a']), (2, ['b']), (3, ['c']), (4, ['d']), (5, ['a', 'a'])],
            sorted_vocab HashOrder.insertion
              [(UNK, 0), (['a'], 1), (['b'], 2), (['c'], 3), (['d'], 4), (['a', 'a'], 5)],
            [((1, 1), 5)]⟩)
      ∧ decode
          ⟨6, 6, [(UNK, 0), (['a'], 1), (['b'], 2), (['c'], 3), (['d'], 4), (['a', 'a'], 5)],
            [(0, UNK), (1, ['a']), (2, ['b']), (3, ['c']), (4, ['d']), (5, ['a', 'a'])],
            sorted_vocab HashOrder.insertion
              [(UNK, 0), (['a'], 1), (['b'], 2), (['c'], 3), (['d'], 4), (['a', 'a'], 5)],
            [((1, 1), 5)]⟩
          ids
        = ['a', 'a', 'a', 'd'] :=
  decode_encode_roundtrip HashOrder.insertion corpus_aaabdaaabac 6 _
    (by decide) ['a', 'a', 'a', 'd'] (by decide)

/-! ## Theorems: seeding -/

theorem set_insert_sorted (c : Char) (l : List Char)
    (h : l.Pairwise (fun a b => char_value a < char_value b)) :
    (set_insert c l).Pairwise (fun a b => char_value a < char_value b) := by
  induction l with
  | nil => simp [set_insert]
  | cons x xs ih =>
    have hx := List.pairwise_cons.1 h
    simp only [set_insert]
    split
    · rename_i hcx
      refine List.pairwise_cons.2 ⟨?_, h⟩
      intro y hy
      rcases List.mem_cons.1 hy with h1 | h1
      · rw [h1]
        exact hcx
      · exact lt_trans hcx (hx.1 y h1)
    · split
      · rename_i hxc
        refine List.pairwise_cons.2 ⟨?_, ih hx.2⟩
        intro y hy
        rcases (mem_set_insert c y xs).1 hy with h1 | h1
        · rw [h1]
          exact hxc
        · exact hx.1 y h1
      · exact h

/-- The elements of the set of characters come in strictly ascending order of
`char`. -/
theorem text_corpus_unique_sorted (text_corpus : Str) :
    (text_corpus_unique text_corpus).Pairwise (fun a b => char_value a < char_value b) := by
  have h : ∀ (text : Str) (l : List Char),
      l.Pairwise (fun a b => char_value a < char_value b) →
      (text.foldl (fun s c => set_insert c s) l).Pairwise
        (fun a b => char_value a < char_value b) := by
    intro text
    induction text with
    | nil => intro l hl; exact hl
    | cons c cs ih => intro l hl; exact ih _ (set_insert_sorted c l hl)
  exact h text_corpus [] List.Pairwise.nil

/-- The set of characters holds every character once. -/
theorem text_corpus_unique_nodup (text_corpus : Str) :
    (text_corpus_unique text_corpus).Nodup :=
  (text_corpus_unique_sorted text_corpus).imp (fun h hab => by rw [hab] at h; exact lt_irrefl _ h)

/-- There are fewer than `2 ^ 32` distinct characters. -/
theorem text_corpus_unique_length (text_corpus : Str) :
    (text_corpus_unique text_corpus).length ≤ 4294967296 := by
  have hnd : (text_corpus_unique text_corpus).Nodup := text_corpus_unique_nodup text_corpus
  have hinj : Function.Injective (fun c : Char => c.val.toNat) := by
    intro a b hab
    exact Char.ext (UInt32.ext hab)
  have hsub : (text_corpus_unique text_corpus).map (fun c : Char => c.val.toNat)
      ⊆ List.range 4294967296 := by
    intro x hx
    obtain ⟨c, -, hc⟩ := List.mem_map.1 hx
    rw [← hc]
    exact List.mem_range.2 c.val.toBitVec.isLt
  have h := (List.subperm_of_subset (hnd.map hinj) hsub).length_le
  simpa using h

theorem um_assign_append {K V : Type} [DecidableEq K] (m : List (K × V)) (k : K) (v : V)
    (h : ∀ e ∈ m, e.1 ≠ k) : um_assign m k v = m ++ [(k, v)] := by
  induction m with
  | nil => rfl
  | cons x m ih =>
    obtain ⟨a, b⟩ := x
    have h1 : a ≠ k := h (a, b) (List.mem_cons_self _ _)
    simp only [um_assign, h1, if_false, List.cons_append]
    rw [ih (fun e he => h e (List.mem_cons_of_mem _ he))]

/-- Seeding appends one entry per character, with consecutive ids, when the
characters are distinct, none of them is a key of `stoi` yet, and the ids
from `max_key` on are not keys of `itos`. -/
theorem seed_eq (u : List Char) :
    ∀ (t : ByToken) (n : Nat), t.max_key = (n : Int) → u.Nodup →
      (∀ e ∈ t.stoi, ∀ c ∈ u, e.1 ≠ [c]) → (∀ e ∈ t.itos, e.1 < t.max_key) →
      seed t u =
        { t with
          stoi := t.stoi ++ (u.enumFrom n).map (fun p => ([p.2], (p.1 : Int)))
          itos := t.itos ++ (u.enumFrom n).map (fun p => ((p.1 : Int), [p.2]))
          max_key := ((n + u.length : Nat) : Int) } := by
  induction u with
  | nil =>
    intro t n hn _ _ _
    cases t
    simp only at hn
    simp [seed, hn]
  | cons ch rest ih =>
    intro t n hn hnd hstoi hitos
    simp only [seed]
    have hnd1 := List.nodup_cons.1 hnd
    have h1 : um_assign t.stoi [ch] t.max_key = t.stoi ++ [([ch], t.max_key)] :=
      um_assign_append _ _ _ (fun e he => hstoi e he ch (List.mem_cons_self _ _))
    have h2 : um_assign t.itos t.max_key [ch] = t.itos ++ [(t.max_key, [ch])] :=
      um_assign_append _ _ _ (fun e he => ne_of_lt (hitos e he))
    rw [h1, h2]
    rw [ih _ (n + 1) (by simp [hn]) hnd1.2]
    · simp only [List.enumFrom_cons, List.map_cons, List.append_assoc, List.singleton_append,
        List.length_cons, hn]
      congr 1
      omega
    · intro e he c hc
      simp only [List.mem_append, List.mem_singleton] at he
      rcases he with he | he
      · exact hstoi e he c (List.mem_cons_of_mem _ hc)
      · subst he
        simp only [ne_eq, List.cons.injEq, and_true]
        intro hcc
        exact hnd1.1 (hcc ▸ hc)
    · intro e he
      simp only [List.mem_append, List.mem_singleton] at he
      show e.1 < t.max_key + 1
      rcases he with he | he
      · have := hitos e he
        omega
      · subst he
        simp

/-- The corpus `"a\xe9"` with `vocab_size = 3`: the byte `0xe9` is `-23` as a
`char` and comes before `a`, so it is seeded with the id `1` and `a` with the
id `2`. -/
theorem train_signed_char_order (o : HashOrder) :
    char_value '\xe9' = -23 ∧ char_value 'a' = 97
      ∧ text_corpus_unique ['a', '\xe9'] = ['\xe9', 'a']
      ∧ train o ByToken.fresh ['a', '\xe9'] 3
          = .ok ⟨3, 3, [(UNK, 0), (['\xe9'], 1), (['a'], 2)],
              [(0, UNK), (1, ['\xe9']), (2, ['a'])],
              sorted_vocab o [(UNK, 0), (['\xe9'], 1), (['a'], 2)], []⟩ := by
  refine ⟨by decide, by decide, by decide, ?_⟩
  rfl

/-- C8. For every corpus, `train` on a fresh tokenizer with
`vocab_size = distinct characters + 1` returns normally; no merge is performed
(`merges` is empty) and the vocabulary is the seed set: id `0` is `"<UNK>"` and
the `k`-th smallest distinct character of the corpus, in the ascending order
of the type `char` (the signed byte value `char_value`), has id `k`, in both
maps. The list of distinct characters is strictly ascending in that order and
holds exactly the characters of the corpus. -/
theorem train_exact_target (o : HashOrder) (text_corpus : Str) :
    (text_corpus_unique text_corpus).Pairwise (fun a b => char_value a < char_value b)
    ∧ (∀ c, c ∈ text_corpus_unique text_corpus ↔ c ∈ text_corpus)
    ∧ ∃ t, train o ByToken.fresh text_corpus ((text_corpus_unique text_corpus).length + 1) = .ok t
        ∧ t.merges = []
        ∧ t.max_key = (text_corpus_unique text_corpus).length + 1
        ∧ t.stoi = (['<', 'U', 'N', 'K', '>'], 0)
            :: ((text_corpus_unique text_corpus).enumFrom 1).map (fun p => ([p.2], (p.1 : Int)))
        ∧ t.itos = (0, ['<', 'U', 'N', 'K', '>'])
            :: ((text_corpus_unique text_corpus).enumFrom 1).map (fun p => ((p.1 : Int), [p.2]))
        ∧ t.final_vocab = sorted_vocab o t.stoi := by
  refine ⟨text_corpus_unique_sorted text_corpus, mem_text_corpus_unique text_corpus, ?_⟩
  have hlen := text_corpus_unique_length text_corpus
  have hseed := seed_eq (text_corpus_unique text_corpus)
    (add_unk { ByToken.fresh with
      vocab_size := ((text_corpus_unique text_corpus).length : Int) + 1 }) 1 rfl
    (text_corpus_unique_nodup text_corpus)
    (by
      intro e he c _
      simp only [add_unk, ByToken.fresh, um_assign, List.mem_singleton] at he
      subst he
      simp [UNK])
    (by
      intro e he
      simp only [add_unk, ByToken.fresh, um_assign, List.mem_singleton] at he
      subst he
      simp [add_unk, ByToken.fresh])
  have hpre : ¬ (text_corpus_unique text_corpus).length + 1
      > to_size_t (((text_corpus_unique text_corpus).length : Int) + 1) := by
    unfold to_size_t
    omega
  have hloop := train_ok_of_loop o ByToken.fresh text_corpus
    (((text_corpus_unique text_corpus).length : Int) + 1)
    ⟨seed (add_unk { ByToken.fresh with
        vocab_size := ((text_corpus_unique text_corpus).length : Int) + 1 })
        (text_corpus_unique text_corpus),
      initial_text_idx
        (seed (add_unk { ByToken.fresh with
          vocab_size := ((text_corpus_unique text_corpus).length : Int) + 1 })
          (text_corpus_unique text_corpus)).stoi text_corpus⟩
    hpre
    (by
      have hfuel : (((text_corpus_unique text_corpus).length : Int) + 1
          - (seed (add_unk { ByToken.fresh with
              vocab_size := ((text_corpus_unique text_corpus).length : Int) + 1 })
              (text_corpus_unique text_corpus)).max_key).toNat = 0 := by
        rw [hseed]
        simp only [Nat.cast_add, Nat.cast_one]
        omega
      rw [hfuel]
      rfl)
  refine ⟨_, hloop, ?_⟩
  rw [hseed]
  refine ⟨rfl, ?_, rfl, rfl, rfl⟩
  show ((1 + (text_corpus_unique text_corpus).length : Nat) : Int)
    = ((text_corpus_unique text_corpus).length : Int) + 1
  omega

/-! ## Theorems: the bounds on the number of rounds are enough -/

/-- More than `vocab_size - max_key` rounds change nothing: the merge loop has
left by then. -/
theorem train_loop_fuel (o : HashOrder) (vocab_size : Int) :
    ∀ (n : Nat) (s : TrainState) (k : Nat), (vocab_size - s.tok.max_key).toNat ≤ n →
      train_loop o vocab_size (n + k) s = train_loop o vocab_size n s := by
  intro n
  induction n with
  | zero =>
    intro s k h
    cases k with
    | zero => rfl
    | succ k =>
      have hge : ¬ s.tok.max_key < vocab_size := by omega
      simp only [Nat.zero_add, train_loop, train_step, hge, if_false]
  | succ n ih =>
    intro s k h
    have hk : n + 1 + k = (n + k) + 1 := by omega
    rw [hk]
    simp only [train_loop]
    cases hstep : train_step o vocab_size s with
    | done s1 => rfl
    | undefined => rfl
    | more s1 =>
      simp only
      apply ih
      obtain ⟨hlt, pc, max_pair, m, new_idx, -, -, -, hs1⟩ :=
        train_step_more o vocab_size s s1 hstep
      subst hs1
      show (vocab_size - (s.tok.max_key + 1)).toNat ≤ n
      omega

/-- Two bounds that are both at least the length of the text give the same
result: the cursor loop of `encode` needs at most one round per character. -/
theorem encode_loop_fuel (final_vocab : List (Str × Int)) :
    ∀ (n m : Nat) (rest : Str) (stoi : List (Str × Int)), rest.length ≤ n → rest.length ≤ m →
      encode_loop final_vocab n rest stoi = encode_loop final_vocab m rest stoi := by
  intro n
  induction n with
  | zero =>
    intro m rest stoi hn _
    have : rest = [] := List.length_eq_zero.1 (Nat.le_zero.1 hn)
    subst this
    cases m <;> rfl
  | succ n ih =>
    intro m rest stoi hn hm
    cases rest with
    | nil => cases m <;> rfl
    | cons c cs =>
      cases m with
      | zero => simp at hm
      | succ m =>
        simp only [List.length_cons] at hn hm
        simp only [encode_loop]
        cases hfm : first_match final_vocab (c :: cs) with
        | none =>
          simp only
          rw [ih m cs _ (by omega) (by omega)]
        | some e =>
          obtain ⟨substr, subkey⟩ := e
          simp only
          by_cases h0 : substr.length = 0
          · simp only [h0, if_true]
          · simp only [h0, if_false]
            have hd : ((c :: cs).drop substr.length).length ≤ cs.length := by
              simp only [List.length_drop, List.length_cons]
              omega
            rw [ih m _ _ (by omega) (by omega)]

/-! ## Theorems: the lookup table -/

/-- The lookup table `std::sort` leaves is ordered by string length,
longest first. -/
theorem sorted_vocab_sorted (o : HashOrder) (stoi : List (Str × Int)) :
    (sorted_vocab o stoi).Pairwise (fun a b => a.1.length ≥ b.1.length) := by
  unfold sorted_vocab
  have htotal : IsTotal (Str × Int) (fun a b => a.1.length ≥ b.1.length) :=
    ⟨fun a b => Nat.le_total b.1.length a.1.length⟩
  have htrans : IsTrans (Str × Int) (fun a b => a.1.length ≥ b.1.length) :=
    ⟨fun _ _ _ hab hbc => Nat.le_trans hbc hab⟩
  exact List.sorted_insertionSort (fun a b => a.1.length ≥ b.1.length) (o.strs stoi)

/-- The lookup table holds the entries of `stoi`, each as often as `stoi`. -/
theorem sorted_vocab_perm (o : HashOrder) (stoi : List (Str × Int)) :
    (sorted_vocab o stoi).Perm stoi := by
  unfold sorted_vocab
  exact (List.perm_insertionSort _ _).trans (o.strs_perm stoi)

theorem seed_keys_nodup (u : List Char) :
    ∀ t : ByToken, (t.stoi.map Prod.fst).Nodup → ((seed t u).stoi.map Prod.fst).Nodup := by
  induction u with
  | nil => intro t h; exact h
  | cons ch rest ih =>
    intro t h
    simp only [seed]
    exact ih _ (um_assign_keys_nodup _ _ _ h)

theorem train_step_keys_nodup (o : HashOrder) (vocab_size : Int) (s s1 : TrainState)
    (hn : (s.tok.stoi.map Prod.fst).Nodup) (h : train_step o vocab_size s = .more s1) :
    (s1.tok.stoi.map Prod.fst).Nodup := by
  obtain ⟨-, pc, max_pair, n, new_idx, -, -, -, hs1⟩ := train_step_more o vocab_size s s1 h
  subst hs1
  exact um_assign_keys_nodup _ _ _ hn

/-- C14. After every successful call of `train`, the lookup table
`final_vocab` is a permutation of the entries of `stoi` (and `stoi` holds
every string once when it did before the call, as a map does), and it is
ordered by string length non-increasing: for all positions `i < j` the string
at `i` is at least as long as the string at `j`. -/
theorem final_vocab_sorted_perm (o : HashOrder) (t0 t : ByToken) (text_corpus : Str)
    (vocab_size : Int) (h : train o t0 text_corpus vocab_size = .ok t) :
    t.final_vocab.Perm t.stoi
      ∧ ((t0.stoi.map Prod.fst).Nodup → (t.stoi.map Prod.fst).Nodup)
      ∧ ∀ i j : Fin t.final_vocab.length, i < j →
          (t.final_vocab.get i).1.length ≥ (t.final_vocab.get j).1.length := by
  obtain ⟨-, s, hloop, ht⟩ := train_ok_inv o _ _ _ _ h
  subst ht
  refine ⟨sorted_vocab_perm o _, ?_, ?_⟩
  · intro hn
    refine train_loop_invariant o vocab_size (fun s => (s.tok.stoi.map Prod.fst).Nodup)
      (train_step_keys_nodup o vocab_size) _ _ _ ?_ hloop
    exact seed_keys_nodup _ _ (um_assign_keys_nodup _ _ _ hn)
  · exact List.pairwise_iff_get.1 (sorted_vocab_sorted o _)

/-- Witness of C14: the tokenizer trained on `"aaabdaaabac"` with
`vocab_size = 6`, the maps iterated in insertion order. -/
theorem final_vocab_sorted_perm_witness :
    (sorted_vocab HashOrder.insertion
        [(UNK, 0), (['a'], 1), (['b'], 2), (['c'], 3), (['d'], 4), (['a', 'a'], 5)]).Perm
      [(UNK, 0), (['a'], 1), (['b'], 2), (['c'], 3), (['d'], 4), (['a', 'a'], 5)] :=
  (final_vocab_sorted_perm HashOrder.insertion ByToken.fresh
    ⟨6, 6, [(UNK, 0), (['a'], 1), (['b'], 2), (['c'], 3), (['d'], 4), (['a', 'a'], 5)],
      [(0, UNK), (1, ['a']), (2, ['b']), (3, ['c']), (4, ['d']), (5, ['a', 'a'])],
      sorted_vocab HashOrder.insertion
        [(UNK, 0), (['a'], 1), (['b'], 2), (['c'], 3), (['d'], 4), (['a', 'a'], 5)],
      [((1, 1), 5)]⟩
    corpus_aaabdaaabac 6 (by decide)).1

/-! ## Theorems: the working sequence on concrete corpora -/

/-- C18. On the empty corpus with `vocab_size = 5` (the precondition
`5 ≥ 0 + 1` holds) the working sequence is empty, `text_idx.size() - 1` is
`2 ^ 64 - 1`, and the counting loop reads `text_idx[0]` out of bounds: the call
of `train` is undefined. On the one-character corpus `"a"` the bound is `0`,
no pair is counted and the loop is left without a merge. -/
theorem train_empty_corpus_out_of_bounds (o : HashOrder) :
    ¬ (text_corpus_unique []).length + 1 > to_size_t 5
      ∧ size_minus_one ([] : List Int).length = 18446744073709551615
      ∧ pair_count [] = none
      ∧ train o ByToken.fresh [] 5 = .undefined
      ∧ pair_count [1] = some []
      ∧ ∃ t, train o ByToken.fresh ['a'] 5 = .ok t ∧ t.merges = [] ∧ t.max_key = 2 := by
  refine ⟨by decide, by decide, by decide, rfl, by decide, ?_⟩
  exact ⟨_, rfl, rfl, rfl⟩

/-- C15. The rewrite of one merge step loses the last element of the working
sequence. On the corpus `"aaabdaaabac"` with `vocab_size = 6` the working
sequence `[1,1,1,2,4,1,1,1,2,1,3]` spells the corpus; the round merges
`(1, 1)` into `5` (`"aa"`) and leaves `[5,1,2,4,5,1,2,1]`, which spells
`"aaabdaaaba"`: the final `3` (`"c"`) is not copied. -/
theorem rewrite_drops_last_element (o : HashOrder) :
    new_text_idx (1, 1) 5 0 [1, 1, 1, 2, 4, 1, 1, 1, 2, 1, 3] = some [5, 1, 2, 4, 5, 1, 2, 1]
    ∧ seq_text [(0, UNK), (1, ['a']), (2, ['b']), (3, ['c']), (4, ['d'])]
        [1, 1, 1, 2, 4, 1, 1, 1, 2, 1, 3]
      = ['a', 'a', 'a', 'b', 'd', 'a', 'a', 'a', 'b', 'a', 'c']
    ∧ ∃ s,
        train_loop o 6 1
          ⟨seed (add_unk { ByToken.fresh with vocab_size := 6 })
              (text_corpus_unique corpus_aaabdaaabac),
            initial_text_idx
              (seed (add_unk { ByToken.fresh with vocab_size := 6 })
                (text_corpus_unique corpus_aaabdaaabac)).stoi corpus_aaabdaaabac⟩ = some s
        ∧ s.text_idx = [5, 1, 2, 4, 5, 1, 2, 1]
        ∧ um_find s.tok.itos 5 = some ['a', 'a']
        ∧ seq_text s.tok.itos s.text_idx = ['a', 'a', 'a', 'b', 'd', 'a', 'a', 'a', 'b', 'a']
        ∧ seq_text s.tok.itos s.text_idx ≠ corpus_aaabdaaabac := by
  refine ⟨by decide, by decide, _, train_loop_aaabdaaabac o, rfl, rfl, by decide, by decide⟩

/-! ## Theorems: loading the merge rules -/

/-- C13 (as stated, refuted). The document `doc_key_without_comma` has the
merges key `"12"`, which is not of the form `"<int>,<int>"`; `from_file`
returns a tokenizer, with no merge rule. -/
theorem from_file_drops_key_without_comma :
    from_file doc_key_without_comma
      = .ok ⟨3, 3, [(['a'], 1)], [(1, ['a'])], [(['a'], 1)], []⟩ := by
  rfl

theorem bind_error_of_forall {α β : Type} (x : Except LoadError α) (f : α → Except LoadError β)
    (h : ∀ a, ∃ e, f a = .error e) : ∃ e, (x >>= f) = .error e := by
  cases x with
  | error e => exact ⟨e, rfl⟩
  | ok a => exact h a

theorem load_merge_error_of_key (kv : Str × Json) (hcomma : ',' ∈ kv.1)
    (hbad : (∃ e, std_stoi (kv.1.takeWhile (· ≠ ',')) = .error e)
      ∨ (∃ e, std_stoi ((kv.1.dropWhile (· ≠ ',')).drop 1) = .error e))
    (merges : List ((Int × Int) × Int)) : ∃ e, load_merge merges kv = .error e := by
  unfold load_merge
  simp only [hcomma, if_true]
  rcases hbad with ⟨e, he⟩ | ⟨e, he⟩
  · rw [he]
    exact ⟨e, rfl⟩
  · apply bind_error_of_forall
    intro a
    rw [he]
    exact ⟨e, rfl⟩

theorem foldlM_load_merge_error (members : List (Str × Json)) (kv : Str × Json)
    (hkv : kv ∈ members) (h : ∀ merges, ∃ e, load_merge merges kv = .error e) :
    ∀ merges, ∃ e, members.foldlM load_merge merges = .error e := by
  induction members with
  | nil => simp at hkv
  | cons x xs ih =>
    intro merges
    simp only [List.foldlM_cons]
    rcases List.mem_cons.1 hkv with h1 | h1
    · subst h1
      obtain ⟨e, he⟩ := h merges
      rw [he]
      exact ⟨e, rfl⟩
    · apply bind_error_of_forall
      intro a
      exact ih h1 a

/-- C13 (amended). In the loop over the merges object of `from_file`, a key
without a comma is skipped: the loop goes on with the rules unchanged. A key
with a comma whose part before the comma, or after it, `std::stoi` cannot
read makes `from_file` fail: no tokenizer is returned. -/
theorem from_file_merge_keys :
    (∀ (merges : List ((Int × Int) × Int)) (kv : Str × Json), ',' ∉ kv.1 →
        load_merge merges kv = .ok merges)
    ∧ (∀ (j m : Json) (members : List (Str × Json)) (kv : Str × Json),
        j.index "model".toList = .ok m →
        m.index "merges".toList = .ok (.obj members) →
        kv ∈ members → ',' ∈ kv.1 →
        ((∃ e, std_stoi (kv.1.takeWhile (· ≠ ',')) = .error e)
          ∨ (∃ e, std_stoi ((kv.1.dropWhile (· ≠ ',')).drop 1) = .error e)) →
        ∃ e, from_file j = .error e) := by
  refine ⟨?_, ?_⟩
  · intro merges kv h
    simp only [load_merge, h, if_false]
    rfl
  · intro j m members kv hm hmerges hkv hcomma hbad
    unfold from_file
    iterate 15 (apply bind_error_of_forall; intro _)
    rw [hm]
    show ∃ e, (m.index "merges".toList >>= _) = Except.error e
    rw [hmerges]
    show ∃ e, (List.foldlM load_merge []
      (List.insertionSort (fun a b => a.1 ≤ b.1) members) >>= _) = Except.error e
    obtain ⟨e, he⟩ := foldlM_load_merge_error
      (List.insertionSort (fun a b => a.1 ≤ b.1) members) kv
      ((List.mem_insertionSort _).2 hkv) (load_merge_error_of_key kv hcomma hbad) []
    rw [he]
    exact ⟨e, rfl⟩

/-- Witness of C13 (amended): the document `doc_key_not_numeric`, with the
merges key `"x,2"`, is not loaded. -/
theorem from_file_merge_keys_witness : ∃ e, from_file doc_key_not_numeric = .error e :=
  from_file_merge_keys.2 doc_key_not_numeric
    (.obj [
      ("stoi".toList, .obj [(['a'], .num 1)]),
      ("itos".toList, .arr [.arr [.num 1, .str ['a']]]),
      ("final_vocab".toList, .arr [.arr [.str ['a'], .num 1]]),
      ("merges".toList, .obj [(['x', ',', '2'], .num 5)])])
    [(['x', ',', '2'], .num 5)] (['x', ',', '2'], .num 5)
    rfl rfl (List.mem_singleton_self _) (by decide) (Or.inl ⟨.invalid_argument, rfl⟩)

/-! ## Theorems: `encode` returns -/

theorem um_find_assign_some {K V : Type} [DecidableEq K] (m : List (K × V)) (k k1 : K) (v1 : V)
    (h : ∃ v, um_find m k = some v) : ∃ v, um_find (um_assign m k1 v1) k = some v := by
  rw [um_find_assign]
  by_cases h1 : k1 = k
  · exact ⟨v1, by simp [h1]⟩
  · obtain ⟨v, hv⟩ := h
    exact ⟨v, by simp [h1, hv]⟩

theorem seed_has_key (u : List Char) (k : Str) :
    ∀ t : ByToken, (∃ v, um_find t.stoi k = some v) → ∃ v, um_find (seed t u).stoi k = some v := by
  induction u with
  | nil => intro t h; exact h
  | cons ch rest ih =>
    intro t h
    simp only [seed]
    exact ih _ (um_find_assign_some _ _ _ _ h)

theorem train_step_has_key (o : HashOrder) (vocab_size : Int) (k : Str) (s s1 : TrainState)
    (hk : ∃ v, um_find s.tok.stoi k = some v) (h : train_step o vocab_size s = .more s1) :
    ∃ v, um_find s1.tok.stoi k = some v := by
  obtain ⟨-, pc, max_pair, n, new_idx, -, -, -, hs1⟩ := train_step_more o vocab_size s s1 h
  subst hs1
  exact um_find_assign_some _ _ _ _ hk

/-- After a successful call of `train`, `"<UNK>"` is a key of `stoi`. -/
theorem train_ok_has_unk (o : HashOrder) (t0 t : ByToken) (text_corpus : Str) (vocab_size : Int)
    (h : train o t0 text_corpus vocab_size = .ok t) : ∃ v, um_find t.stoi UNK = some v := by
  obtain ⟨-, s, hloop, ht⟩ := train_ok_inv o _ _ _ _ h
  subst ht
  refine train_loop_invariant o vocab_size (fun s => ∃ v, um_find s.tok.stoi UNK = some v)
    (train_step_has_key o vocab_size UNK) _ _ _ ?_ hloop
  apply seed_has_key
  refine ⟨t0.max_key, ?_⟩
  simp only [add_unk]
  rw [um_find_assign]
  simp

/-- With a lookup table without the empty string and `"<UNK>"` a key of
`stoi`, the cursor loop returns on every text, leaves `stoi` as it is, and
pushes at most one id per character. -/
theorem encode_loop_total (final_vocab stoi : List (Str × Int))
    (hne : ∀ e ∈ final_vocab, e.1 ≠ []) (hunk : ∃ v, um_find stoi UNK = some v) :
    ∀ (fuel : Nat) (rest : Str), rest.length ≤ fuel →
      ∃ ids, encode_loop final_vocab fuel rest stoi = some (ids, stoi)
        ∧ ids.length ≤ rest.length := by
  obtain ⟨v, hv⟩ := hunk
  intro fuel
  induction fuel with
  | zero =>
    intro rest hlen
    have : rest = [] := List.length_eq_zero.1 (Nat.le_zero.1 hlen)
    subst this
    exact ⟨[], by simp [encode_loop], by simp⟩
  | succ n ih =>
    intro rest hlen
    cases rest with
    | nil => exact ⟨[], by simp [encode_loop], by simp⟩
    | cons c cs =>
      simp only [List.length_cons] at hlen
      cases hm : first_match final_vocab (c :: cs) with
      | none =>
        obtain ⟨ids, hids, hl⟩ := ih cs (by omega)
        refine ⟨um_at stoi UNK 0 :: ids, ?_, by simp only [List.length_cons]; omega⟩
        simp only [encode_loop, hm, um_touch_of_find _ _ _ _ hv, hids, Option.map_some']
      | some e =>
        obtain ⟨substr, subkey⟩ := e
        obtain ⟨hmem, -⟩ := first_match_some _ _ _ hm
        have hlen0 : substr.length ≠ 0 := fun h0 => hne _ hmem (List.length_eq_zero.1 h0)
        have hdrop : ((c :: cs).drop substr.length).length ≤ cs.length := by
          simp only [List.length_drop, List.length_cons]
          omega
        obtain ⟨ids, hids, hl⟩ := ih ((c :: cs).drop substr.length) (by omega)
        refine ⟨subkey :: ids, ?_, by simp only [List.length_cons]; omega⟩
        simp only [encode_loop, hm, hlen0, if_false, hids, Option.map_some']

theorem train_step_itos_nonempty (o : HashOrder) (vocab_size : Int) (s s1 : TrainState)
    (hinv : LoopInvariant s ∧ ∀ e ∈ s.tok.itos, e.2 ≠ [])
    (h : train_step o vocab_size s = .more s1) :
    LoopInvariant s1 ∧ ∀ e ∈ s1.tok.itos, e.2 ≠ [] := by
  refine ⟨train_step_loop_invariant o vocab_size s s1 hinv.1 h, ?_⟩
  obtain ⟨-, pc, max_pair, n, new_idx, hpc, hmax, hnew, hs1⟩ := train_step_more o vocab_size s s1 h
  obtain ⟨hl, hr⟩ := train_step_pair_mem o s pc max_pair n hpc hmax
  obtain ⟨sl, hsl, hsl_ne⟩ := hinv.1.2 _ hl
  obtain ⟨sr, hsr, -⟩ := hinv.1.2 _ hr
  subst hs1
  intro e he
  simp only [record_merge, um_touch_of_find _ _ _ _ hsl, um_touch_of_find _ _ _ _ hsr] at he
  rcases mem_um_assign _ _ _ _ he with h1 | h1
  · rw [h1]
    simp only [um_at, hsl, hsr, Option.getD_some]
    intro h0
    exact hsl_ne (List.append_eq_nil.1 h0).1
  · exact hinv.2 e h1

theorem seed_itos_nonempty (u : List Char) :
    ∀ t : ByToken, (∀ e ∈ t.itos, e.2 ≠ []) → ∀ e ∈ (seed t u).itos, e.2 ≠ [] := by
  induction u with
  | nil => intro t h; exact h
  | cons ch rest ih =>
    intro t h
    simp only [seed]
    apply ih
    intro e he
    rcases mem_um_assign _ _ _ _ he with h1 | h1
    · rw [h1]
      simp
    · exact h e h1

/-- C20. After a successful call of `train` on a fresh tokenizer no string of
the vocabulary is empty (neither in `stoi`, nor in the lookup table, nor in
`itos`), so every match of `encode` moves the cursor by at least one
character: `encode` returns on every text, and the sequence it returns is not
longer than the text. -/
theorem encode_terminates (o : HashOrder) (text_corpus : Str) (vocab_size : Int) (t : ByToken)
    (h : train o ByToken.fresh text_corpus vocab_size = .ok t) :
    (∀ e ∈ t.stoi, e.1 ≠ []) ∧ (∀ e ∈ t.final_vocab, e.1 ≠ []) ∧ (∀ e ∈ t.itos, e.2 ≠ [])
      ∧ (∀ (rest : Str) (e : Str × Int), first_match t.final_vocab rest = some e →
          0 < e.1.length)
      ∧ ∀ s : Str, ∃ ids, encode t s = some (ids, t) ∧ ids.length ≤ s.length := by
  obtain ⟨hcons, -, hfv⟩ := train_ok_invariant o t text_corpus vocab_size h
  have hunk := train_ok_has_unk o _ t text_corpus vocab_size h
  have hne : ∀ e ∈ t.final_vocab, e.1 ≠ [] := fun e he => (hcons e ((hfv e).1 he)).2.2
  have hitos : ∀ e ∈ t.itos, e.2 ≠ [] := by
    obtain ⟨-, s, hloop, ht⟩ := train_ok_inv o _ _ _ _ h
    obtain ⟨hinv0, -⟩ := initial_state_invariant text_corpus vocab_size
    have h1 := train_loop_invariant o vocab_size
      (fun s => LoopInvariant s ∧ ∀ e ∈ s.tok.itos, e.2 ≠ [])
      (train_step_itos_nonempty o vocab_size) _ _ _ ⟨hinv0, ?_⟩ hloop
    · subst ht
      exact h1.2
    · apply seed_itos_nonempty
      intro e he
      simp only [add_unk, ByToken.fresh, um_assign, List.mem_singleton] at he
      subst he
      simp [UNK]
  refine ⟨fun e he => (hcons e he).2.2, hne, hitos, ?_, ?_⟩
  · intro rest e he
    exact List.length_pos.2 (hne e (first_match_some _ _ _ he).1)
  · intro s
    obtain ⟨ids, hids, hl⟩ := encode_loop_total t.final_vocab t.stoi hne hunk s.length s (le_refl _)
    exact ⟨ids, by simp only [encode, hids, Option.map_some'], hl⟩

/-- Witness of C20: the tokenizer trained on `"aaabdaaabac"` with
`vocab_size = 6`, and the text `"axa"`. -/
theorem encode_terminates_witness :
    ∃ ids,
      encode
          ⟨6, 6, [(UNK, 0), (['a'], 1), (['b'], 2), (['c'], 3), (['d'], 4), (['a', 'a'], 5)],
            [(0, UNK), (1, ['a']), (2, ['b']), (3, ['c']), (4, ['d']), (5, ['a', 'a'])],
            sorted_vocab HashOrder.insertion
              [(UNK, 0), (['a'], 1), (['b'], 2), (['c'], 3), (['d'], 4), (['a', 'a'], 5)],
            [((1, 1), 5)]⟩
          ['a', 'x', 'a']
        = some (ids,
          ⟨6, 6, [(UNK, 0), (['a'], 1), (['b'], 2), (['c'], 3), (['d'], 4), (['a', 'a'], 5)],
            [(0, UNK), (1, ['a']), (2, ['b']), (3, ['c']), (4, ['d']), (5, ['a', 'a'])],
            sorted_vocab HashOrder.insertion
              [(UNK, 0), (['a'], 1), (['b'], 2), (['c'], 3), (['d'], 4), (['a', 'a'], 5)],
            [((1, 1), 5)]⟩)
      ∧ ids.length ≤ ['a', 'x', 'a'].length :=
  (encode_terminates HashOrder.insertion corpus_aaabdaaabac 6 _ (by decide)).2.2.2.2
    ['a', 'x', 'a']

/-! ## Theorems: `encode` is greedy longest-match -/

theorem first_match_none_imp (final_vocab : List (Str × Int)) (rest : Str)
    (h : first_match final_vocab rest = none) : ∀ e ∈ final_vocab, ¬ e.1 <+: rest := by
  induction final_vocab with
  | nil => intro e he; simp at he
  | cons x fv ih =>
    obtain ⟨substr, subkey⟩ := x
    simp only [first_match] at h
    split at h
    · simp at h
    · rename_i hnp
      intro e he
      rcases List.mem_cons.1 he with h1 | h1
      · rw [h1]
        exact hnp
      · exact ih h e h1

/-- In a table ordered by length, longest first, the first entry that matches
is a longest entry that matches. -/
theorem first_match_longest (final_vocab : List (Str × Int)) (rest : Str) (e : Str × Int)
    (hs : final_vocab.Pairwise (fun a b => a.1.length ≥ b.1.length))
    (h : first_match final_vocab rest = some e) :
    ∀ e1 ∈ final_vocab, e1.1 <+: rest → e1.1.length ≤ e.1.length := by
  induction final_vocab with
  | nil => simp [first_match] at h
  | cons x fv ih =>
    obtain ⟨substr, subkey⟩ := x
    have hx := List.pairwise_cons.1 hs
    simp only [first_match] at h
    split at h
    · simp only [Option.some.injEq] at h
      subst h
      intro e1 he1 _
      rcases List.mem_cons.1 he1 with h1 | h1
      · rw [h1]
      · exact hx.1 e1 h1
    · rename_i hnp
      intro e1 he1 hp
      rcases List.mem_cons.1 he1 with h1 | h1
      · rw [h1] at hp
        exact absurd hp hnp
      · exact ih hx.2 h e1 h1 hp

/-- Two tables with the entries of one map, both ordered by length, longest
first, have the same first match on every text. -/
theorem first_match_perm (stoi fv1 fv2 : List (Str × Int)) (hn : (stoi.map Prod.fst).Nodup)
    (hp1 : fv1.Perm stoi) (hp2 : fv2.Perm stoi)
    (hs1 : fv1.Pairwise (fun a b => a.1.length ≥ b.1.length))
    (hs2 : fv2.Pairwise (fun a b => a.1.length ≥ b.1.length)) (rest : Str) :
    first_match fv1 rest = first_match fv2 rest := by
  cases h1 : first_match fv1 rest with
  | none =>
    have hno := first_match_none_imp fv1 rest h1
    rw [first_match_none fv2 rest]
    intro e he
    exact hno e (hp1.mem_iff.2 (hp2.mem_iff.1 he))
  | some e1 =>
    obtain ⟨hm1, hpre1⟩ := first_match_some _ _ _ h1
    cases h2 : first_match fv2 rest with
    | none =>
      exact absurd hpre1 (first_match_none_imp fv2 rest h2 e1 (hp2.mem_iff.2 (hp1.mem_iff.1 hm1)))
    | some e2 =>
      obtain ⟨hm2, hpre2⟩ := first_match_some _ _ _ h2
      have hle1 := first_match_longest fv1 rest e1 hs1 h1 e2
        (hp1.mem_iff.2 (hp2.mem_iff.1 hm2)) hpre2
      have hle2 := first_match_longest fv2 rest e2 hs2 h2 e1
        (hp2.mem_iff.2 (hp1.mem_iff.1 hm1)) hpre1
      have hkey : e1.1 = e2.1 :=
        (List.prefix_of_prefix_length_le hpre1 hpre2 hle2).eq_of_length (by omega)
      have hf1 := um_find_of_mem_nodup stoi e1 hn (hp1.mem_iff.1 hm1)
      have hf2 := um_find_of_mem_nodup stoi e2 hn (hp2.mem_iff.1 hm2)
      rw [hkey, hf2] at hf1
      have hval : e2.2 = e1.2 := Option.some.inj hf1
      congr 1
      exact Prod.ext hkey hval.symm

theorem encode_loop_congr (fv1 fv2 : List (Str × Int))
    (h : ∀ rest, first_match fv1 rest = first_match fv2 rest) :
    ∀ (fuel : Nat) (rest : Str) (stoi : List (Str × Int)),
      encode_loop fv1 fuel rest stoi = encode_loop fv2 fuel rest stoi := by
  intro fuel
  induction fuel with
  | zero =>
    intro rest stoi
    cases rest <;> rfl
  | succ n ih =>
    intro rest stoi
    cases rest with
    | nil => rfl
    | cons c cs =>
      simp only [encode_loop, h (c :: cs)]
      cases first_match fv2 (c :: cs) with
      | none => simp only [ih]
      | some e => simp only [ih]

/-- C19. The ids `encode` returns do not depend on the order of the entries of
equal length in the lookup table: for two tokenizers with the same `stoi`
whose lookup tables are both permutations of the entries of one
string-to-id map and both ordered by string length non-increasing, `encode`
returns the same id sequence (or fails to return in both) for every text. -/
theorem encode_order_independent (map : List (Str × Int)) (hn : (map.map Prod.fst).Nodup)
    (t1 t2 : ByToken) (hstoi : t1.stoi = t2.stoi)
    (hp1 : t1.final_vocab.Perm map) (hp2 : t2.final_vocab.Perm map)
    (hs1 : t1.final_vocab.Pairwise (fun a b => a.1.length ≥ b.1.length))
    (hs2 : t2.final_vocab.Pairwise (fun a b => a.1.length ≥ b.1.length)) (text : Str) :
    (encode t1 text).map Prod.fst = (encode t2 text).map Prod.fst := by
  unfold encode
  rw [encode_loop_congr t1.final_vocab t2.final_vocab
    (first_match_perm map _ _ hn hp1 hp2 hs1 hs2), hstoi]
  cases encode_loop t2.final_vocab text.length text t2.stoi <;> rfl

/-- Witness of C19: the map `{"a" ↦ 1, "b" ↦ 2}` with its two entries in
either order, and the text `"ab"`. -/
theorem encode_order_independent_witness :
    (encode ⟨3, 3, [(['a'], 1), (['b'], 2)], [], [(['a'], 1), (['b'], 2)], []⟩
        ['a', 'b']).map Prod.fst
      = (encode ⟨3, 3, [(['a'], 1), (['b'], 2)], [], [(['b'], 2), (['a'], 1)], []⟩
        ['a', 'b']).map Prod.fst :=
  encode_order_independent [(['a'], 1), (['b'], 2)] (by decide)
    ⟨3, 3, [(['a'], 1), (['b'], 2)], [], [(['a'], 1), (['b'], 2)], []⟩
    ⟨3, 3, [(['a'], 1), (['b'], 2)], [], [(['b'], 2), (['a'], 1)], []⟩
    rfl (List.Perm.refl _) (List.Perm.swap _ _ _) (by decide) (by decide) ['a', 'b']

theorem encode_of_loop (t : ByToken) (text : Str) (ids : List Int)
    (h : encode_loop t.final_vocab text.length text t.stoi = some (ids, t.stoi)) :
    encode t text = some (ids, t) := by
  simp only [encode, h, Option.map_some']

/-- C12. After a successful call of `train` on a fresh tokenizer, `encode` is
greedy longest-match. The empty text gives the empty sequence. On a text that
is not empty, either some vocabulary string is an initial segment of the
text: then the first id returned is the id of a vocabulary string that is an
initial segment of the text, no vocabulary string that is an initial segment
is longer, and the other ids are those of `encode` on the text after that
string (which is not empty); or no vocabulary string is an initial segment:
then the first id is the unknown id, the id `stoi["<UNK>"]`, whose string in
`itos` is `"<UNK>"`, and the other ids are those of `encode` on the text after
its first character. -/
theorem encode_greedy_longest_match (o : HashOrder) (text_corpus : Str) (vocab_size : Int)
    (t : ByToken) (h : train o ByToken.fresh text_corpus vocab_size = .ok t) :
    encode t [] = some ([], t)
    ∧ ∀ (c : Char) (cs : Str),
        (∃ substr subkey ids,
            (substr, subkey) ∈ t.stoi ∧ substr <+: c :: cs ∧ 0 < substr.length
            ∧ (∀ e ∈ t.stoi, e.1 <+: c :: cs → e.1.length ≤ substr.length)
            ∧ encode t ((c :: cs).drop substr.length) = some (ids, t)
            ∧ encode t (c :: cs) = some (subkey :: ids, t))
        ∨ ((∀ e ∈ t.stoi, ¬ e.1 <+: c :: cs)
            ∧ ∃ unk ids, um_find t.stoi UNK = some unk ∧ um_find t.itos unk = some UNK
                ∧ encode t cs = some (ids, t)
                ∧ encode t (c :: cs) = some (unk :: ids, t)) := by
  obtain ⟨hcons, -, hfv⟩ := train_ok_invariant o t text_corpus vocab_size h
  obtain ⟨v, hv⟩ := train_ok_has_unk o _ t text_corpus vocab_size h
  have hne : ∀ e ∈ t.final_vocab, e.1 ≠ [] := fun e he => (hcons e ((hfv e).1 he)).2.2
  have hsorted : t.final_vocab.Pairwise (fun a b => a.1.length ≥ b.1.length) := by
    obtain ⟨-, s, -, ht⟩ := train_ok_inv o _ _ _ _ h
    subst ht
    exact sorted_vocab_sorted o _
  have htotal := encode_loop_total t.final_vocab t.stoi hne ⟨v, hv⟩
  refine ⟨encode_of_loop t [] [] rfl, ?_⟩
  intro c cs
  cases hm : first_match t.final_vocab (c :: cs) with
  | none =>
    right
    refine ⟨fun e he => first_match_none_imp _ _ hm e ((hfv e).2 he), ?_⟩
    obtain ⟨ids, hids, -⟩ := htotal cs.length cs (le_refl _)
    refine ⟨v, ids, hv, (hcons _ (um_find_mem _ _ _ hv)).2.1, encode_of_loop t cs ids hids,
      encode_of_loop t (c :: cs) _ ?_⟩
    simp only [List.length_cons, encode_loop, hm, um_touch_of_find _ _ _ _ hv, hids,
      Option.map_some', um_at, hv, Option.getD_some]
  | some e =>
    left
    obtain ⟨substr, subkey⟩ := e
    obtain ⟨hmem, hpre⟩ := first_match_some _ _ _ hm
    have hlen0 : substr.length ≠ 0 := fun h0 => hne _ hmem (List.length_eq_zero.1 h0)
    have hdrop : ((c :: cs).drop substr.length).length ≤ cs.length := by
      simp only [List.length_drop, List.length_cons]
      omega
    obtain ⟨ids, hids, -⟩ := htotal ((c :: cs).drop substr.length).length
      ((c :: cs).drop substr.length) (le_refl _)
    refine ⟨substr, subkey, ids, (hfv _).1 hmem, hpre, Nat.pos_of_ne_zero hlen0, ?_,
      encode_of_loop t _ ids hids, encode_of_loop t (c :: cs) _ ?_⟩
    · intro e1 he1 hp1
      exact first_match_longest _ _ _ hsorted hm e1 ((hfv e1).2 he1) hp1
    · have hfuel := encode_loop_fuel t.final_vocab cs.length
        ((c :: cs).drop substr.length).length ((c :: cs).drop substr.length) t.stoi hdrop
        (le_refl _)
      simp only [List.length_cons, encode_loop, hm, hlen0, if_false, hfuel, hids,
        Option.map_some']

/-- Witness of C12: the tokenizer trained on `"aaabdaaabac"` with
`vocab_size = 6`; `encode` of the empty text and of `"aax"`. -/
theorem encode_greedy_longest_match_witness :
    encode trained_aaabdaaabac [] = some ([], trained_aaabdaaabac)
    ∧ ((∃ substr subkey ids,
          (substr, subkey) ∈ trained_aaabdaaabac.stoi ∧ substr <+: ['a', 'a', 'x']
          ∧ 0 < substr.length
          ∧ (∀ e ∈ trained_aaabdaaabac.stoi, e.1 <+: ['a', 'a', 'x'] →
              e.1.length ≤ substr.length)
          ∧ encode trained_aaabdaaabac (['a', 'a', 'x'].drop substr.length)
              = some (ids, trained_aaabdaaabac)
          ∧ encode trained_aaabdaaabac ['a', 'a', 'x']
              = some (subkey :: ids, trained_aaabdaaabac))
      ∨ ((∀ e ∈ trained_aaabdaaabac.stoi, ¬ e.1 <+: ['a', 'a', 'x'])
          ∧ ∃ unk ids, um_find trained_aaabdaaabac.stoi UNK = some unk
              ∧ um_find trained_aaabdaaabac.itos unk = some UNK
              ∧ encode trained_aaabdaaabac ['a', 'x'] = some (ids, trained_aaabdaaabac)
              ∧ encode trained_aaabdaaabac ['a', 'a', 'x']
                  = some (unk :: ids, trained_aaabdaaabac))) :=
  ⟨(encode_greedy_longest_match HashOrder.insertion corpus_aaabdaaabac 6 trained_aaabdaaabac
      (by decide)).1,
   (encode_greedy_longest_match HashOrder.insertion corpus_aaabdaaabac 6 trained_aaabdaaabac
      (by decide)).2 'a' ['a', 'x']⟩

/-! ## Theorems: the merge rules -/

theorem occurrences_cons_le (p : Int × Int) (a : Int) (w : List Int) :
    occurrences p w ≤ occurrences p (a :: w) := by
  cases w with
  | nil => simp [occurrences]
  | cons b rest =>
    simp only [occurrences]
    omega

theorem new_text_idx_head (max_pair : Int × Int) (max_key : Int) (i : Nat) (b x : Int)
    (rest r : List Int) (h : new_text_idx max_pair max_key i (b :: rest) = some (x :: r)) :
    x = max_key ∨ x = b := by
  cases rest with
  | nil => simp [new_text_idx] at h
  | cons c rest1 =>
    simp only [new_text_idx] at h
    split at h
    · split at h
      · simp only [Option.map_eq_some'] at h
        obtain ⟨r1, -, hr1⟩ := h
        exact Or.inl (List.cons.inj hr1).1.symm
      · simp at h
    · simp only [Option.map_eq_some'] at h
      obtain ⟨r1, -, hr1⟩ := h
      exact Or.inr (List.cons.inj hr1).1.symm

/-- A pair of old ids that occurs after the rewrite occurred before it and is
not the merged pair. -/
theorem occurrences_new_text_idx (max_pair : Int × Int) (max_key : Int) (n : Nat) :
    ∀ (w : List Int), w.length ≤ n → ∀ (i : Nat) (new_idx : List Int),
      new_text_idx max_pair max_key i w = some new_idx →
      ∀ p : Int × Int, p.1 ≠ max_key → p.2 ≠ max_key → 0 < occurrences p new_idx →
        0 < occurrences p w ∧ p ≠ max_pair := by
  induction n with
  | zero =>
    intro w hw i new_idx h p _ _ hpos
    have : w = [] := List.length_eq_zero.1 (Nat.le_zero.1 hw)
    subst this
    simp [new_text_idx] at h
    subst h
    simp [occurrences] at hpos
  | succ n ih =>
    intro w hw i new_idx h p hp1 hp2 hpos
    match w, hw, h with
    | [], _, h =>
      simp [new_text_idx] at h
      subst h
      simp [occurrences] at hpos
    | [a], _, h =>
      simp [new_text_idx] at h
      subst h
      simp [occurrences] at hpos
    | a :: b :: rest, hw, h =>
      simp only [List.length_cons] at hw
      simp only [new_text_idx] at h
      split at h
      · split at h
        · simp only [Option.map_eq_some'] at h
          obtain ⟨r, hr, hnew⟩ := h
          subst hnew
          cases r with
          | nil => simp [occurrences] at hpos
          | cons x r1 =>
            simp only [occurrences] at hpos
            have hne : ¬ (max_key, x) = p := fun h0 => hp1 (by rw [← h0])
            simp only [hne, if_false, Nat.zero_add] at hpos
            obtain ⟨h1, h2⟩ := ih rest (by omega) _ _ hr p hp1 hp2 hpos
            refine ⟨?_, h2⟩
            have h3 := occurrences_cons_le p b rest
            have h4 := occurrences_cons_le p a (b :: rest)
            omega
        · simp at h
      · rename_i hne_pair
        simp only [Option.map_eq_some'] at h
        obtain ⟨r, hr, hnew⟩ := h
        subst hnew
        cases r with
        | nil => simp [occurrences] at hpos
        | cons x r1 =>
          simp only [occurrences] at hpos
          by_cases hax : (a, x) = p
          · rcases new_text_idx_head _ _ _ _ _ _ _ hr with hx | hx
            · exact absurd (by rw [← hax]; exact hx) hp2
            · subst hx
              subst hax
              refine ⟨?_, hne_pair⟩
              simp [occurrences]
          · simp only [hax, if_false, Nat.zero_add] at hpos
            obtain ⟨h1, h2⟩ := ih (b :: rest) (by simp only [List.length_cons]; omega) _ _ hr p
              hp1 hp2 hpos
            refine ⟨?_, h2⟩
            have h4 := occurrences_cons_le p a (b :: rest)
            omega

theorem seed_max_key (u : List Char) :
    ∀ t : ByToken, (seed t u).max_key = t.max_key + (u.length : Int) := by
  induction u with
  | nil => intro t; simp [seed]
  | cons ch rest ih =>
    intro t
    simp only [seed, ih, List.length_cons, Nat.cast_add, Nat.cast_one]
    omega

theorem seed_merges (u : List Char) : ∀ t : ByToken, (seed t u).merges = t.merges := by
  induction u with
  | nil => intro t; rfl
  | cons ch rest ih =>
    intro t
    simp only [seed, ih]

/-- The pair a round selects occurs in the working sequence at least once. -/
theorem train_step_pair_occurs (o : HashOrder) (s : TrainState) (pc : List ((Int × Int) × Nat))
    (max_pair : Int × Int) (n : Nat) (hpc : pair_count s.text_idx = some pc)
    (hmax : max_element (o.pairs pc) = some (max_pair, n)) :
    0 < occurrences max_pair s.text_idx := by
  have hpc1 : pc = pair_count_from [] s.text_idx := by
    unfold pair_count at hpc
    split at hpc
    · exact (Option.some.inj hpc).symm
    · simp at hpc
  have hmem : (max_pair, n) ∈ pair_count_from [] s.text_idx :=
    hpc1 ▸ (o.pairs_perm pc).mem_iff.1 (max_element_spec _ _ hmax).1
  obtain ⟨hn, hpos⟩ := pair_count_from_entry _ _ hmem
  simp only at hn hpos
  exact hn ▸ hpos

/-- A completed round preserves the invariant about the merge rules. -/
theorem train_step_merge_invariant (o : HashOrder) (vocab_size base : Int) (s s1 : TrainState)
    (hinv : LoopInvariant s ∧ MergeInvariant base s)
    (h : train_step o vocab_size s = .more s1) :
    LoopInvariant s1 ∧ MergeInvariant base s1 := by
  refine ⟨train_step_loop_invariant o vocab_size s s1 hinv.1 h, ?_⟩
  obtain ⟨-, pc, max_pair, n, new_idx, hpc, hmax, hnew, hs1⟩ := train_step_more o vocab_size s s1 h
  obtain ⟨hl, hr⟩ := train_step_pair_mem o s pc max_pair n hpc hmax
  have hocc := train_step_pair_occurs o s pc max_pair n hpc hmax
  obtain ⟨⟨-, htext⟩, hlt, hrules, hgone, hnodup, htargets, hcount⟩ := hinv
  obtain ⟨sl, hsl, -⟩ := htext _ hl
  obtain ⟨sr, hsr, -⟩ := htext _ hr
  have hl_lt := hlt _ hl
  have hr_lt := hlt _ hr
  have htouch : um_touch (um_touch s.tok.itos max_pair.1 []) max_pair.2 [] = s.tok.itos := by
    rw [um_touch_of_find _ _ _ _ hsl, um_touch_of_find _ _ _ _ hsr]
  have hfresh : ∀ e ∈ s.tok.merges, e.1 ≠ max_pair := by
    intro e he h0
    have := hgone e he
    rw [h0] at this
    omega
  have hassign : um_assign s.tok.merges max_pair s.tok.max_key
      = s.tok.merges ++ [(max_pair, s.tok.max_key)] := um_assign_append _ _ _ hfresh
  have hmerged : um_at s.tok.itos max_pair.1 [] ++ um_at s.tok.itos max_pair.2 [] = sl ++ sr := by
    simp only [um_at, hsl, hsr, Option.getD_some]
  have hfind : ∀ x : Int, x < s.tok.max_key →
      um_find (um_assign s.tok.itos s.tok.max_key (sl ++ sr)) x = um_find s.tok.itos x := by
    intro x hx
    rw [um_find_assign]
    have : ¬ s.tok.max_key = x := by omega
    simp only [this, if_false]
  have hnew_mem := mem_new_text_idx max_pair s.tok.max_key _ _ (le_refl _) 0 new_idx hnew
  have hnew_occ := occurrences_new_text_idx max_pair s.tok.max_key _ _ (le_refl _) 0 new_idx hnew
  subst hs1
  simp only [MergeInvariant, record_merge, htouch, hassign, hmerged]
  refine ⟨?_, ?_, ?_, ?_, ?_, ?_⟩
  · intro i hi
    rcases hnew_mem i hi with h1 | h1
    · omega
    · have := hlt i h1
      omega
  · intro r hr1
    rcases List.mem_append.1 hr1 with h1 | h1
    · obtain ⟨h2, h3, h4, sl1, sr1, h5, h6, h7⟩ := hrules r h1
      refine ⟨by omega, h3, h4, sl1, sr1, ?_, ?_, ?_⟩
      · rw [hfind _ (by omega)]
        exact h5
      · rw [hfind _ (by omega)]
        exact h6
      · rw [hfind _ h2]
        exact h7
    · rw [List.mem_singleton] at h1
      subst h1
      refine ⟨by simp, hl_lt, hr_lt, sl, sr, ?_, ?_, ?_⟩
      · rw [hfind _ hl_lt]
        exact hsl
      · rw [hfind _ hr_lt]
        exact hsr
      · rw [um_find_assign]
        simp
  · intro r hr1
    by_contra hne
    have hpos : 0 < occurrences r.1 new_idx := Nat.pos_of_ne_zero hne
    rcases List.mem_append.1 hr1 with h1 | h1
    · obtain ⟨h2, h3, h4, -⟩ := hrules r h1
      obtain ⟨h5, -⟩ := hnew_occ r.1 (by omega) (by omega) hpos
      have := hgone r h1
      omega
    · rw [List.mem_singleton] at h1
      subst h1
      obtain ⟨-, h5⟩ := hnew_occ max_pair (by omega) (by omega) hpos
      exact h5 rfl
  · rw [← hassign]
    exact um_assign_keys_nodup _ _ _ hnodup
  · rw [List.map_append, htargets, List.length_append, List.length_singleton, List.range_succ,
      List.map_append]
    simp only [List.map_cons, List.map_nil]
    rw [hcount]
  · simp only [List.length_append, List.length_singleton, Nat.cast_add, Nat.cast_one]
    omega

/-- The state in which the merge loop of a call on a fresh tokenizer starts
satisfies the invariant about the merge rules, with `base` the number of
distinct characters plus one. -/
theorem initial_state_merge_invariant (text_corpus : Str) (vocab_size : Int) :
    MergeInvariant ((text_corpus_unique text_corpus).length + 1)
      ⟨seed (add_unk { ByToken.fresh with vocab_size := vocab_size })
          (text_corpus_unique text_corpus),
        initial_text_idx
          (seed (add_unk { ByToken.fresh with vocab_size := vocab_size })
            (text_corpus_unique text_corpus)).stoi text_corpus⟩ := by
  obtain ⟨⟨hcons, -⟩, hcov⟩ := initial_state_invariant text_corpus vocab_size
  have hmerges : (seed (add_unk { ByToken.fresh with vocab_size := vocab_size })
      (text_corpus_unique text_corpus)).merges = [] := by
    rw [seed_merges]
    rfl
  have hmax : (seed (add_unk { ByToken.fresh with vocab_size := vocab_size })
      (text_corpus_unique text_corpus)).max_key
      = ((text_corpus_unique text_corpus).length : Int) + 1 := by
    rw [seed_max_key]
    simp only [add_unk, ByToken.fresh]
    omega
  simp only [MergeInvariant, hmerges, hmax]
  refine ⟨?_, by simp, by simp, by simp, by simp, by simp⟩
  intro i hi
  simp only [initial_text_idx, List.mem_map] at hi
  obtain ⟨ch, hch, hi⟩ := hi
  obtain ⟨k, hk⟩ := hcov ch hch
  simp only [um_at, hk, Option.getD_some] at hi
  subst hi
  have := (hcons _ (um_find_mem _ _ _ hk)).1
  rw [hmax] at this
  exact this

/-- After a successful call of `train` on a fresh tokenizer the merge rules
satisfy the invariant of the merge loop, for some last working sequence. -/
theorem train_ok_merge_invariant (o : HashOrder) (t : ByToken) (text_corpus : Str)
    (vocab_size : Int) (h : train o ByToken.fresh text_corpus vocab_size = .ok t) :
    ∃ w, MergeInvariant ((text_corpus_unique text_corpus).length + 1) ⟨t, w⟩ := by
  obtain ⟨-, s, hloop, ht⟩ := train_ok_inv o _ _ _ _ h
  obtain ⟨hinv0, -⟩ := initial_state_invariant text_corpus vocab_size
  have hM := (train_loop_invariant o vocab_size
    (fun s => LoopInvariant s
      ∧ MergeInvariant ((text_corpus_unique text_corpus).length + 1) s)
    (train_step_merge_invariant o vocab_size _) _ _ _
    ⟨hinv0, initial_state_merge_invariant text_corpus vocab_size⟩ hloop).2
  subst ht
  exact ⟨s.text_idx, hM⟩

/-- C11. After a successful call of `train` on a fresh tokenizer, every merge
rule `(left, right) ↦ target` has `target > left` and `target > right`, and
`left` and `right` are ids of the vocabulary (keys of `itos`). -/
theorem merge_target_greater (o : HashOrder) (text_corpus : Str) (vocab_size : Int)
    (t : ByToken) (h : train o ByToken.fresh text_corpus vocab_size = .ok t) :
    ∀ r ∈ t.merges, r.2 > r.1.1 ∧ r.2 > r.1.2
      ∧ (∃ s, um_find t.itos r.1.1 = some s) ∧ (∃ s, um_find t.itos r.1.2 = some s) := by
  obtain ⟨w, -, hrules, -⟩ := train_ok_merge_invariant o t text_corpus vocab_size h
  intro r hr
  obtain ⟨-, h1, h2, sl, sr, h3, h4, -⟩ := hrules r hr
  exact ⟨h1, h2, ⟨sl, h3⟩, ⟨sr, h4⟩⟩

/-- Witness of C11: the rule `(1, 1) ↦ 5` of the tokenizer trained on
`"aaabdaaabac"` with `vocab_size = 6`. -/
theorem merge_target_greater_witness :
    ((5 : Int) > 1 ∧ (5 : Int) > 1)
      ∧ (∃ s, um_find trained_aaabdaaabac.itos 1 = some s)
      ∧ (∃ s, um_find trained_aaabdaaabac.itos 1 = some s) :=
  have h := merge_target_greater HashOrder.insertion corpus_aaabdaaabac 6 trained_aaabdaaabac
    (by decide) ((1, 1), 5) (List.mem_singleton_self _)
  ⟨⟨h.1, h.2.1⟩, h.2.2.1, h.2.2.2⟩

/-- C16. After a successful call of `train` on a fresh tokenizer, for every
merge rule `(left, right) ↦ target` the string of `target` is the string of
`left` followed by the string of `right`:
`itos[target] = itos[left] ++ itos[right]`, all three ids being keys of
`itos`. -/
theorem merge_string_concat (o : HashOrder) (text_corpus : Str) (vocab_size : Int)
    (t : ByToken) (h : train o ByToken.fresh text_corpus vocab_size = .ok t) :
    ∀ r ∈ t.merges, ∃ sl sr, um_find t.itos r.1.1 = some sl ∧ um_find t.itos r.1.2 = some sr
      ∧ um_find t.itos r.2 = some (sl ++ sr) := by
  obtain ⟨w, -, hrules, -⟩ := train_ok_merge_invariant o t text_corpus vocab_size h
  intro r hr
  exact (hrules r hr).2.2.2

/-- Witness of C16: the rule `(1, 1) ↦ 5` of the tokenizer trained on
`"aaabdaaabac"` with `vocab_size = 6`. -/
theorem merge_string_concat_witness :
    ∃ sl sr, um_find trained_aaabdaaabac.itos 1 = some sl
      ∧ um_find trained_aaabdaaabac.itos 1 = some sr
      ∧ um_find trained_aaabdaaabac.itos 5 = some (sl ++ sr) :=
  merge_string_concat HashOrder.insertion corpus_aaabdaaabac 6 trained_aaabdaaabac
    (by decide) ((1, 1), 5) (List.mem_singleton_self _)

/-- C17. After a successful call of `train` on a fresh tokenizer the number of
merge rules is the number of rounds that performed a merge,
`max_key - (distinct characters + 1)`. No pair has been selected twice: every
pair has one rule, and the targets of the rules are the ids
`distinct characters + 1, ...` in the order of the rounds, none overwritten. -/
theorem merges_count (o : HashOrder) (text_corpus : Str) (vocab_size : Int)
    (t : ByToken) (h : train o ByToken.fresh text_corpus vocab_size = .ok t) :
    (t.merges.length : Int) = t.max_key - ((text_corpus_unique text_corpus).length + 1)
      ∧ (t.merges.map Prod.fst).Nodup
      ∧ t.merges.map Prod.snd
          = (List.range t.merges.length).map
              (fun k : Nat => ((text_corpus_unique text_corpus).length : Int) + 1 + (k : Int)) := by
  obtain ⟨w, -, -, -, hnodup, htargets, hcount⟩ :=
    train_ok_merge_invariant o t text_corpus vocab_size h
  simp only at hcount htargets
  exact ⟨by omega, hnodup, htargets⟩

/-- Witness of C17: the tokenizer trained on `"aaabdaaabac"` with
`vocab_size = 6` has one rule, and `max_key = 6 = 4 + 1 + 1`. -/
theorem merges_count_witness :
    (trained_aaabdaaabac.merges.length : Int)
      = trained_aaabdaaabac.max_key - ((text_corpus_unique corpus_aaabdaaabac).length + 1) :=
  (merges_count HashOrder.insertion corpus_aaabdaaabac 6 trained_aaabdaaabac (by decide)).1

end Bytoken
